import Mathlib

/-!
Verification of the Speech Sequencing & Text-Normalization Engine of the
littleReader audiobook player.

The definitions below are a shallow embedding of the JavaScript source
(the text-to-speech converter module).  JavaScript strings are modelled as
`String`/`List Char`; regular-expression replacement passes are modelled by
explicit structurally recursive scanners (fuel-indexed so that they reduce
in the kernel); IEEE floats appearing in the source only as
`Math.floor((p/100) * n)`-style expressions are idealized as exact rational
arithmetic, i.e. as truncating natural division.  The global mutable
playback state (`textChunks`, `currentChunkIndex`, `isPaused`,
`currentUtterance`, plus the speech engine's speaking/pending flag) is
modelled as an explicit state record threaded through the operations.
-/

set_option maxRecDepth 100000
set_option maxHeartbeats 1000000

namespace LittleReader

/-! ## Playback sequencer state

Embeds the module-level mutable variables of the source:
`textChunks`, `currentChunkIndex`, `isPaused`, `currentUtterance`
(as `hasUtterance : Bool`), and the external engine's
`speechSynthesis.speaking || speechSynthesis.pending` flag (as
`speaking : Bool`).  `isPaused` mirrors the engine's paused state, which
the source keeps in lock step with its own `isPaused` flag. -/

structure TTSState where
  textChunks : List String
  currentChunkIndex : Nat
  isPaused : Bool
  speaking : Bool
  hasUtterance : Bool
deriving DecidableEq, Repr

/-- The module-level initial values: `textChunks = []`,
`currentChunkIndex = 0`, `isPaused = false`, no utterance, engine idle. -/
def initState : TTSState :=
  { textChunks := [], currentChunkIndex := 0, isPaused := false
    speaking := false, hasUtterance := false }

/-- Embeds `cancelSpeech` (source lines 453-460): if the engine is speaking
or pending, cancel it, null the utterance and clear the pause flag; the
chunk list and current index are untouched. -/
def cancelSpeech (s : TTSState) : TTSState :=
  if s.speaking then
    { s with speaking := false, hasUtterance := false, isPaused := false }
  else s

/-- Embeds `stopSpeech` (source lines 466-471): `cancelSpeech` then reset
`currentChunkIndex` to 0 and `textChunks` to the empty list. -/
def stopSpeech (s : TTSState) : TTSState :=
  let s1 := cancelSpeech s
  { s1 with currentChunkIndex := 0, textChunks := [] }

/-- Embeds the state effect of `speakNextChunk` (source lines 376-425):
if `currentChunkIndex >= textChunks.length` it resolves at once with no
state change; otherwise it creates a new utterance and hands it to the
engine (`speechSynthesis.speak`). -/
def speakNextChunk (s : TTSState) : TTSState :=
  if s.currentChunkIndex ≥ s.textChunks.length then s
  else { s with hasUtterance := true, speaking := true }

/-- Embeds `pauseSpeech` (source lines 430-436). -/
def pauseSpeech (s : TTSState) : TTSState :=
  if s.speaking ∧ ¬s.isPaused then { s with isPaused := true } else s

/-- Embeds `resumeSpeech` (source lines 441-447). -/
def resumeSpeech (s : TTSState) : TTSState :=
  if s.isPaused then { s with isPaused := false } else s

/-- Embeds `getCurrentPercentage` (source lines 501-504):
0 when no chunks are loaded, otherwise
`Math.floor((currentChunkIndex / textChunks.length) * 100)`, idealized as
exact truncating division. -/
def getCurrentPercentage (s : TTSState) : Nat :=
  if s.textChunks.length = 0 then 0
  else s.currentChunkIndex * 100 / s.textChunks.length

/-- The record returned by `getCurrentPosition`. -/
structure PositionInfo where
  currentChunk : Nat
  totalChunks : Nat
  percentage : Nat
  remainingChunks : Nat
deriving DecidableEq, Repr

/-- Embeds `getCurrentPosition` (source lines 510-517).  The source
computes `remainingChunks` as `textChunks.length - currentChunkIndex`; in
every reachable state `currentChunkIndex ≤ textChunks.length`, so the
truncating natural subtraction agrees with the JavaScript value. -/
def getCurrentPosition (s : TTSState) : PositionInfo :=
  { currentChunk := s.currentChunkIndex
    totalChunks := s.textChunks.length
    percentage := getCurrentPercentage s
    remainingChunks := s.textChunks.length - s.currentChunkIndex }

/-- Embeds `seekToPercentage` (source lines 524-546).  The argument is an
integer percentage (callers pass integers); values outside `[0, 100]` are
rejected with an error message and no state change, as is a seek on an
empty chunk list.  Otherwise
`targetChunk = Math.floor((percentage/100) * textChunks.length)`
(idealized as exact truncating division; at the claim-relevant value
`percentage = 100` the float product is exact), the current utterance is
cancelled, the index is set to `min targetChunk (textChunks.length - 1)`
and speaking restarts there. -/
def seekToPercentage (p : Int) (s : TTSState) : TTSState :=
  if p < 0 ∨ p > 100 then s
  else if s.textChunks.length = 0 then s
  else
    let targetChunk := p.toNat * s.textChunks.length / 100
    let s1 := cancelSpeech s
    let s2 := { s1 with
      currentChunkIndex := min targetChunk (s.textChunks.length - 1) }
    speakNextChunk s2

/-- Embeds `seekNextChunk` (source lines 552-571). -/
def seekNextChunk (s : TTSState) : TTSState :=
  if s.textChunks.length = 0 then s
  else if s.currentChunkIndex ≥ s.textChunks.length - 1 then s
  else
    let s1 := cancelSpeech s
    let s2 := { s1 with currentChunkIndex := s.currentChunkIndex + 1 }
    speakNextChunk s2

/-- Embeds `seekPreviousChunk` (source lines 577-596). -/
def seekPreviousChunk (s : TTSState) : TTSState :=
  if s.textChunks.length = 0 then s
  else if s.currentChunkIndex = 0 then s
  else
    let s1 := cancelSpeech s
    let s2 := { s1 with currentChunkIndex := s.currentChunkIndex - 1 }
    speakNextChunk s2

/-- Embeds `seekForward` (source lines 603-607). -/
def seekForward (amount : Int) (s : TTSState) : TTSState :=
  seekToPercentage (min 100 ((getCurrentPercentage s : Int) + amount)) s

/-- Embeds `seekBackward` (source lines 614-618). -/
def seekBackward (amount : Int) (s : TTSState) : TTSState :=
  seekToPercentage (max 0 ((getCurrentPercentage s : Int) - amount)) s

/-- The operations a caller (or an engine callback) can perform on the
sequencer state.  `load` is the state effect of `convertTextToSpeech`
(stop, install the freshly split chunk list, reset the index, start
speaking); `finish` is the `onend` callback of the in-flight utterance
(advance the index and speak the next chunk if any); `play` is a bare
`speakNextChunk`. -/
inductive SeqOp where
  | cancel
  | stop
  | pause
  | resume
  | seekPct (p : Int)
  | next
  | prev
  | fwd (a : Int)
  | back (a : Int)
  | play
  | load (cs : List String)
  | finish
deriving DecidableEq

/-- Interpretation of each operation as a state transformer. -/
def applyOp : SeqOp → TTSState → TTSState
  | .cancel, s => cancelSpeech s
  | .stop, s => stopSpeech s
  | .pause, s => pauseSpeech s
  | .resume, s => resumeSpeech s
  | .seekPct p, s => seekToPercentage p s
  | .next, s => seekNextChunk s
  | .prev, s => seekPreviousChunk s
  | .fwd a, s => seekForward a s
  | .back a, s => seekBackward a s
  | .play, s => speakNextChunk s
  | .load cs, s =>
      speakNextChunk { stopSpeech s with textChunks := cs, currentChunkIndex := 0 }
  | .finish, s =>
      if s.speaking then
        speakNextChunk { s with
          currentChunkIndex := s.currentChunkIndex + 1
          speaking := false, hasUtterance := false }
      else s

/-- States reachable from the freshly initialized module by any sequence
of operations and engine callbacks. -/
inductive Reachable : TTSState → Prop
  | init : Reachable initState
  | step (op : SeqOp) {s : TTSState} : Reachable s → Reachable (applyOp op s)

/-- The state invariant maintained by every operation: the index never
passes the end of the chunk list, an in-flight utterance always points at
a real chunk, and an unloaded sequencer sits at index 0 with an idle
engine. -/
def SeqInv (s : TTSState) : Prop :=
  s.currentChunkIndex ≤ s.textChunks.length ∧
  (s.speaking = true → s.currentChunkIndex < s.textChunks.length) ∧
  (s.textChunks = [] → s.currentChunkIndex = 0 ∧ s.speaking = false)

theorem seqInv_init : SeqInv initState := by
  refine ⟨?_, ?_, ?_⟩ <;> simp [initState, SeqInv]

theorem cancelSpeech_textChunks (s : TTSState) :
    (cancelSpeech s).textChunks = s.textChunks := by
  unfold cancelSpeech; split <;> rfl

theorem cancelSpeech_index (s : TTSState) :
    (cancelSpeech s).currentChunkIndex = s.currentChunkIndex := by
  unfold cancelSpeech; split <;> rfl

theorem speakNextChunk_textChunks (s : TTSState) :
    (speakNextChunk s).textChunks = s.textChunks := by
  unfold speakNextChunk; split <;> rfl

theorem speakNextChunk_index (s : TTSState) :
    (speakNextChunk s).currentChunkIndex = s.currentChunkIndex := by
  unfold speakNextChunk; split <;> rfl

theorem seekToPercentage_textChunks (p : Int) (s : TTSState) :
    (seekToPercentage p s).textChunks = s.textChunks := by
  unfold seekToPercentage
  split
  · rfl
  · split
    · rfl
    · rw [speakNextChunk_textChunks]
      exact cancelSpeech_textChunks s

theorem cancelSpeech_speaking (s : TTSState) : (cancelSpeech s).speaking = false := by
  unfold cancelSpeech
  split_ifs with h
  · rfl
  · simpa using h

/-- `speakNextChunk` preserves the invariant whenever the input state
satisfies it. -/
theorem seqInv_speak {s : TTSState} (h : SeqInv s) : SeqInv (speakNextChunk s) := by
  obtain ⟨h1, h2, h3⟩ := h
  unfold speakNextChunk
  split_ifs with hge
  · exact ⟨h1, h2, h3⟩
  · refine ⟨h1, fun _ => ?_, fun he => ?_⟩
    · show s.currentChunkIndex < s.textChunks.length
      omega
    · exfalso
      have h0 : s.textChunks = [] := he
      have : s.textChunks.length = 0 := by rw [h0]; rfl
      omega

theorem seqInv_cancel {s : TTSState} (h : SeqInv s) : SeqInv (cancelSpeech s) := by
  obtain ⟨h1, h2, h3⟩ := h
  unfold cancelSpeech
  split_ifs with hs
  · exact ⟨h1, by simp, fun he => ⟨(h3 he).1, rfl⟩⟩
  · exact ⟨h1, h2, h3⟩

theorem seqInv_stop {s : TTSState} (h : SeqInv s) : SeqInv (stopSpeech s) := by
  have hc := seqInv_cancel h
  have hsp := cancelSpeech_speaking s
  exact ⟨Nat.zero_le _, fun hs => by simp_all [stopSpeech], fun _ => ⟨rfl, by simp_all [stopSpeech]⟩⟩

theorem seqInv_pause {s : TTSState} (h : SeqInv s) : SeqInv (pauseSpeech s) := by
  obtain ⟨h1, h2, h3⟩ := h
  unfold pauseSpeech
  split_ifs with hs
  · exact ⟨h1, h2, fun he => ⟨(h3 he).1, (h3 he).2⟩⟩
  · exact ⟨h1, h2, h3⟩

theorem seqInv_resume {s : TTSState} (h : SeqInv s) : SeqInv (resumeSpeech s) := by
  obtain ⟨h1, h2, h3⟩ := h
  unfold resumeSpeech
  split_ifs with hs
  · exact ⟨h1, h2, fun he => ⟨(h3 he).1, (h3 he).2⟩⟩
  · exact ⟨h1, h2, h3⟩

theorem seqInv_seekPct {s : TTSState} (p : Int) (h : SeqInv s) :
    SeqInv (seekToPercentage p s) := by
  unfold seekToPercentage
  split_ifs with hp hz
  · exact h
  · exact h
  · have hlen : 0 < s.textChunks.length := Nat.pos_of_ne_zero hz
    apply seqInv_speak
    refine ⟨?_, ?_, ?_⟩ <;> dsimp only <;> rw [cancelSpeech_textChunks]
    · exact Nat.le_trans (Nat.min_le_right _ _) (by omega)
    · rw [cancelSpeech_speaking]
      intro hsp
      exact absurd hsp (by simp)
    · intro he
      exfalso
      have : s.textChunks.length = 0 := by rw [he]; rfl
      omega

theorem seqInv_next {s : TTSState} (h : SeqInv s) : SeqInv (seekNextChunk s) := by
  obtain ⟨h1, h2, h3⟩ := h
  unfold seekNextChunk
  split_ifs with hz hge
  · exact ⟨h1, h2, h3⟩
  · exact ⟨h1, h2, h3⟩
  · apply seqInv_speak
    refine ⟨?_, ?_, ?_⟩ <;> dsimp only <;> rw [cancelSpeech_textChunks]
    · omega
    · rw [cancelSpeech_speaking]
      intro hsp
      exact absurd hsp (by simp)
    · intro he
      exfalso
      have : s.textChunks.length = 0 := by rw [he]; rfl
      omega

theorem seqInv_prev {s : TTSState} (h : SeqInv s) : SeqInv (seekPreviousChunk s) := by
  obtain ⟨h1, h2, h3⟩ := h
  unfold seekPreviousChunk
  split_ifs with hz hzero
  · exact ⟨h1, h2, h3⟩
  · exact ⟨h1, h2, h3⟩
  · apply seqInv_speak
    refine ⟨?_, ?_, ?_⟩ <;> dsimp only <;> rw [cancelSpeech_textChunks]
    · omega
    · rw [cancelSpeech_speaking]
      intro hsp
      exact absurd hsp (by simp)
    · intro he
      exfalso
      have hlen : 0 < s.textChunks.length := Nat.pos_of_ne_zero hz
      have : s.textChunks.length = 0 := by rw [he]; rfl
      omega

theorem seqInv_load {s : TTSState} (cs : List String) :
    SeqInv (speakNextChunk { stopSpeech s with textChunks := cs, currentChunkIndex := 0 }) := by
  apply seqInv_speak
  refine ⟨Nat.zero_le _, ?_, fun _ => ⟨rfl, ?_⟩⟩
  · intro hsp
    have : (stopSpeech s).speaking = false := by
      simpa [stopSpeech] using cancelSpeech_speaking s
    exact absurd hsp (by simpa using this)
  · simpa [stopSpeech] using cancelSpeech_speaking s

theorem seqInv_finish {s : TTSState} (h : SeqInv s) : SeqInv (applyOp .finish s) := by
  obtain ⟨h1, h2, h3⟩ := h
  dsimp only [applyOp]
  split_ifs with hsp
  · apply seqInv_speak
    have hidx := h2 hsp
    refine ⟨?_, ?_, ?_⟩ <;> dsimp only
    · omega
    · intro hf
      exact absurd hf (by simp)
    · intro he
      exfalso
      have : s.textChunks.length = 0 := by rw [he]; rfl
      omega
  · exact ⟨h1, h2, h3⟩

theorem seqInv_step (op : SeqOp) (s : TTSState) (h : SeqInv s) :
    SeqInv (applyOp op s) := by
  cases op with
  | cancel => exact seqInv_cancel h
  | stop => exact seqInv_stop h
  | pause => exact seqInv_pause h
  | resume => exact seqInv_resume h
  | seekPct p => exact seqInv_seekPct p h
  | next => exact seqInv_next h
  | prev => exact seqInv_prev h
  | fwd a => exact seqInv_seekPct _ h
  | back a => exact seqInv_seekPct _ h
  | play => exact seqInv_speak h
  | load cs => exact seqInv_load cs
  | finish => exact seqInv_finish h

theorem reachable_inv {s : TTSState} (h : Reachable s) : SeqInv s := by
  induction h with
  | init => exact seqInv_init
  | step op _ ih => exact seqInv_step op _ ih

theorem pauseSpeech_textChunks (s : TTSState) :
    (pauseSpeech s).textChunks = s.textChunks := by
  unfold pauseSpeech; split <;> rfl

theorem resumeSpeech_textChunks (s : TTSState) :
    (resumeSpeech s).textChunks = s.textChunks := by
  unfold resumeSpeech; split <;> rfl

theorem seekNextChunk_textChunks (s : TTSState) :
    (seekNextChunk s).textChunks = s.textChunks := by
  unfold seekNextChunk
  split_ifs with h1 h2
  · rfl
  · rfl
  · rw [speakNextChunk_textChunks]
    exact cancelSpeech_textChunks s

theorem seekPreviousChunk_textChunks (s : TTSState) :
    (seekPreviousChunk s).textChunks = s.textChunks := by
  unfold seekPreviousChunk
  split_ifs with h1 h2
  · rfl
  · rfl
  · rw [speakNextChunk_textChunks]
    exact cancelSpeech_textChunks s

/-- A state with two loaded chunks, index 0, idle engine: a loaded,
non-empty, not-currently-speaking sequencer. -/
def c1State : TTSState :=
  { textChunks := ["a", "b"], currentChunkIndex := 0, isPaused := false
    speaking := false, hasUtterance := false }

/-- Claim C1 counterexample: on a loaded non-empty sequencer,
`seekToPercentage 150` is a rejected no-op (the source guards
`percentage > 100` exactly like `percentage < 0`), while
`seekToPercentage 100` moves the index to the last chunk and restarts
playback, so the two calls do not behave identically. -/
theorem seek150_not_like_seek100 :
    seekToPercentage 150 c1State = c1State ∧
    seekToPercentage 150 c1State ≠ seekToPercentage 100 c1State := by
  decide

/-- Claim C1 (amended): for every sequencer state, a percentage outside
`[0, 100]` — in particular 150, exactly like -10 — is rejected without
mutating any sequencer state: chunks, currentIndex, pause flag, utterance
and engine flag are all unchanged. -/
theorem seekToPercentage_out_of_range_rejected (s : TTSState) (p : Int)
    (h : p < 0 ∨ 100 < p) : seekToPercentage p s = s := by
  unfold seekToPercentage
  rw [if_pos h]

/-- Witness for `seekToPercentage_out_of_range_rejected` at the concrete
inputs 150 and -10 on a loaded two-chunk state. -/
theorem seekToPercentage_out_of_range_rejected_witness :
    seekToPercentage 150 c1State = c1State ∧
    seekToPercentage (-10) c1State = c1State :=
  ⟨seekToPercentage_out_of_range_rejected c1State 150 (by decide),
   seekToPercentage_out_of_range_rejected c1State (-10) (by decide)⟩

/-- Claim C8: `cancelSpeech` terminates the in-flight utterance while
leaving the loaded chunk sequence and the current index unchanged;
`stopSpeech` clears the chunk sequence to empty and resets the index
to 0; and among all sequencer operations only `stop` (and `load`, which
wholesale replaces the document rather than discarding it) can change the
loaded chunk sequence. -/
theorem cancel_stop_frame :
    (∀ s : TTSState, (cancelSpeech s).textChunks = s.textChunks ∧
        (cancelSpeech s).currentChunkIndex = s.currentChunkIndex) ∧
    (∀ s : TTSState,
        (stopSpeech s).textChunks = [] ∧ (stopSpeech s).currentChunkIndex = 0) ∧
    (∀ (op : SeqOp) (s : TTSState), op ≠ .stop → (∀ cs, op ≠ .load cs) →
        (applyOp op s).textChunks = s.textChunks) := by
  refine ⟨fun s => ⟨cancelSpeech_textChunks s, cancelSpeech_index s⟩,
    fun s => ⟨rfl, rfl⟩, fun op s hstop hload => ?_⟩
  cases op with
  | cancel => exact cancelSpeech_textChunks s
  | stop => exact absurd rfl hstop
  | pause => exact pauseSpeech_textChunks s
  | resume => exact resumeSpeech_textChunks s
  | seekPct p => exact seekToPercentage_textChunks p s
  | next => exact seekNextChunk_textChunks s
  | prev => exact seekPreviousChunk_textChunks s
  | fwd a => exact seekToPercentage_textChunks _ s
  | back a => exact seekToPercentage_textChunks _ s
  | play => exact speakNextChunk_textChunks s
  | load cs => exact absurd rfl (hload cs)
  | finish =>
      dsimp only [applyOp]
      split_ifs with hsp
      · rw [speakNextChunk_textChunks]
      · rfl

/-- Witness for `cancel_stop_frame` at concrete inputs: pausing a
speaking two-chunk state leaves the loaded chunk sequence intact. -/
theorem cancel_stop_frame_witness :
    (applyOp .pause
      { textChunks := ["x", "y"], currentChunkIndex := 1, isPaused := false
        speaking := true, hasUtterance := true }).textChunks = ["x", "y"] :=
  cancel_stop_frame.2.2 .pause _ (fun h => SeqOp.noConfusion h)
    (fun _ h => SeqOp.noConfusion h)

/-- Claim C9: `getCurrentPosition` returns the current index, the total
chunk count, the truncated percentage `currentIndex * 100 / total`
(guarded to 0 when `total = 0`), and `total - currentIndex` remaining
chunks; and on every reachable state with no loaded chunks (empty or
unloaded sequencer) it returns the all-zero record rather than dividing
by zero. -/
theorem getPosition_spec (s : TTSState) (hr : Reachable s) :
    getCurrentPosition s =
      { currentChunk := s.currentChunkIndex
        totalChunks := s.textChunks.length
        percentage := if s.textChunks.length = 0 then 0
          else s.currentChunkIndex * 100 / s.textChunks.length
        remainingChunks := s.textChunks.length - s.currentChunkIndex } ∧
    (s.textChunks.length = 0 →
      getCurrentPosition s =
        { currentChunk := 0, totalChunks := 0, percentage := 0, remainingChunks := 0 }) := by
  refine ⟨rfl, fun h0 => ?_⟩
  have he : s.textChunks = [] := List.length_eq_zero.mp h0
  have hidx : s.currentChunkIndex = 0 := ((reachable_inv hr).2.2 he).1
  simp [getCurrentPosition, getCurrentPercentage, h0, hidx]

/-- Witness for `getPosition_spec`: the freshly initialized sequencer
reports the all-zero position. -/
theorem getPosition_spec_witness :
    getCurrentPosition initState =
      { currentChunk := 0, totalChunks := 0, percentage := 0, remainingChunks := 0 } :=
  (getPosition_spec initState Reachable.init).2 rfl

/-- Claim C10: on every reachable state with a non-empty loaded chunk
sequence, each accepted seek lands the index inside
`[0, chunks.length - 1]` (never on the finished value `chunks.length`):
any `seekToPercentage p` with `0 ≤ p ≤ 100`, a `seekNextChunk` accepted
below the last chunk, and a `seekPreviousChunk` accepted above index 0;
moreover `seekToPercentage 100` sets the index to the final chunk
`chunks.length - 1` and restarts playback there. -/
theorem seek_index_in_range (s : TTSState) (hr : Reachable s)
    (hne : s.textChunks ≠ []) :
    (∀ p : Int, 0 ≤ p → p ≤ 100 →
        (seekToPercentage p s).currentChunkIndex <
          (seekToPercentage p s).textChunks.length) ∧
    ((seekToPercentage 100 s).currentChunkIndex = s.textChunks.length - 1 ∧
        (seekToPercentage 100 s).speaking = true) ∧
    (s.currentChunkIndex < s.textChunks.length - 1 →
        (seekNextChunk s).currentChunkIndex < (seekNextChunk s).textChunks.length) ∧
    (0 < s.currentChunkIndex →
        (seekPreviousChunk s).currentChunkIndex <
          (seekPreviousChunk s).textChunks.length) := by
  have hlen : 0 < s.textChunks.length := List.length_pos.mpr hne
  obtain ⟨hi1, hi2, hi3⟩ := reachable_inv hr
  refine ⟨?_, ?_, ?_, ?_⟩
  · intro p hp0 hp100
    unfold seekToPercentage
    rw [if_neg (by omega), if_neg (by omega)]
    rw [speakNextChunk_index, speakNextChunk_textChunks]
    dsimp only
    rw [cancelSpeech_textChunks]
    have := Nat.min_le_right (p.toNat * s.textChunks.length / 100)
      (s.textChunks.length - 1)
    omega
  · have htgt : (100 : Int).toNat * s.textChunks.length / 100 = s.textChunks.length := by
      rw [show (100 : Int).toNat = 100 from rfl]
      omega
    constructor
    · unfold seekToPercentage
      rw [if_neg (by omega), if_neg (by omega)]
      rw [speakNextChunk_index]
      dsimp only
      rw [htgt]
      omega
    · unfold seekToPercentage
      rw [if_neg (by omega), if_neg (by omega)]
      unfold speakNextChunk
      rw [if_neg]
      dsimp only
      rw [cancelSpeech_textChunks, htgt]
      have : min s.textChunks.length (s.textChunks.length - 1) =
          s.textChunks.length - 1 := by omega
      omega
  · intro hbelow
    unfold seekNextChunk
    rw [if_neg (by omega), if_neg (by omega)]
    rw [speakNextChunk_index, speakNextChunk_textChunks]
    dsimp only
    rw [cancelSpeech_textChunks]
    omega
  · intro hpos
    unfold seekPreviousChunk
    rw [if_neg (by omega), if_neg (by omega)]
    rw [speakNextChunk_index, speakNextChunk_textChunks]
    dsimp only
    rw [cancelSpeech_textChunks]
    omega

/-- Witness for `seek_index_in_range`: after loading two chunks into the
fresh sequencer, seeking to 100 percent lands on the final chunk (index
1 = length - 1) and restarts playback. -/
theorem seek_index_in_range_witness :
    (seekToPercentage 100 (applyOp (.load ["a", "b"]) initState)).currentChunkIndex =
      (applyOp (.load ["a", "b"]) initState).textChunks.length - 1 ∧
    (seekToPercentage 100 (applyOp (.load ["a", "b"]) initState)).speaking = true :=
  (seek_index_in_range (applyOp (.load ["a", "b"]) initState)
    (Reachable.step _ Reachable.init) (by decide)).2.1

/-! ## Text normalizer

The source's `preprocessText` is a fixed pipeline of global regex
replacements over a JavaScript string.  Each replacement pass is embedded
as a left-to-right scanner: at every position it either consumes a match
(emitting its replacement, which is not rescanned) or copies one
character, exactly the semantics of `String.replace` with a `g`-flagged
regex whose matches are never empty. -/

/-- JavaScript regex word character (ASCII `A-Z a-z 0-9 _`). -/
def isWordChar (c : Char) : Bool := c.isAlpha || c.isDigit || c = '_'

/-- JavaScript regex whitespace, restricted to the ASCII range (the
Unicode whitespace code points do not occur in the texts considered). -/
def isWsChar (c : Char) : Bool :=
  c = ' ' || c = '\t' || c = '\n' || c = '\r' || c = '\x0b' || c = '\x0c'

/-- ASCII decimal digit. -/
def isDigitChar (c : Char) : Bool := c.isDigit

/-- Is the character preceding the scan position a word character?
(`none` stands for the start of the string.) -/
def wordOpt : Option Char → Bool
  | none => false
  | some c => isWordChar c

/-- Does the remaining input start with a word character?  Used for
trailing word-boundary tests (end of input also counts as a boundary). -/
def wordHead : List Char → Bool
  | [] => false
  | c :: _ => isWordChar c

/-- One global-replacement pass.  `f prev l` inspects the not-yet
consumed input `l` (with `prev` the original character just before it,
for word-boundary tests) and returns `some (replacement, n)` to consume
`n ≥ 1` characters and emit `replacement`, or `none` to emit the next
character unchanged.  Replacements are not rescanned, matching
JavaScript `replace` with a global regex.  The fuel bounds the
recursion; with `fuel = l.length` the scan always completes because
every step consumes at least one character, and exhausted fuel returns
the rest unchanged. -/
def scanRepF (f : Option Char → List Char → Option (List Char × Nat)) :
    Nat → Option Char → List Char → List Char
  | 0, _, l => l
  | _ + 1, _, [] => []
  | fuel + 1, prev, c :: cs =>
    match f prev (c :: cs) with
    | some (rep, n) =>
      if n = 0 then c :: scanRepF f fuel (some c) cs
      else rep ++ scanRepF f fuel (((c :: cs).take n).getLastD c) ((c :: cs).drop n)
    | none => c :: scanRepF f fuel (some c) cs

/-- Run one replacement pass over a whole string. -/
def runPass (f : Option Char → List Char → Option (List Char × Nat))
    (l : List Char) : List Char :=
  scanRepF f l.length none l

/-- An element of a literal-with-wildcards pattern: a fixed character or
the regex dot (which matches anything except a line terminator). -/
inductive PatElem where
  | lit (c : Char)
  | wild
deriving DecidableEq

/-- Match a pattern against a prefix of the input, returning the number
of characters consumed. -/
def matchPat : List PatElem → List Char → Option Nat
  | [], _ => some 0
  | _ :: _, [] => none
  | .lit p :: ps, c :: cs =>
      if p = c then (matchPat ps cs).map (· + 1) else none
  | .wild :: ps, c :: cs =>
      if c = '\n' ∨ c = '\r' then none else (matchPat ps cs).map (· + 1)

/-- Case-insensitive literal prefix match (regex `i` flag, ASCII
folding via `Char.toLower`). -/
def matchLitsCI : List Char → List Char → Option Nat
  | [], _ => some 0
  | _ :: _, [] => none
  | p :: ps, c :: cs =>
      if p.toLower = c.toLower then (matchLitsCI ps cs).map (· + 1) else none

/-- The abbreviation table of `preprocessText` step 1, in source order. -/
def abbreviationPairs : List (String × String) :=
  [("Dr.", "Doctor"), ("Mr.", "Mister"), ("Mrs.", "Missus"), ("Ms.", "Miss"),
   ("Prof.", "Professor"), ("Sr.", "Senior"), ("Jr.", "Junior"),
   ("St.", "Street"), ("Ave.", "Avenue"), ("Blvd.", "Boulevard"),
   ("Rd.", "Road"), ("Apt.", "Apartment"), ("etc.", "et cetera"),
   ("vs.", "versus"), ("e.g.", "for example"), ("i.e.", "that is"),
   ("Inc.", "Incorporated"), ("Corp.", "Corporation"), ("Ltd.", "Limited"),
   ("Co.", "Company")]

/-- The source builds each abbreviation regex from the key with
`abbrev.replace` of a period by an escaped period, which replaces only
the FIRST period: that one becomes a literal, while any later period of
the key stays a regex dot (wildcard).  The `seen` flag records whether
the first period has been passed. -/
def mkAbbrevPat : List Char → Bool → List PatElem
  | [], _ => []
  | c :: cs, seen =>
      if c = '.' then
        (if seen then PatElem.wild else PatElem.lit '.') :: mkAbbrevPat cs true
      else PatElem.lit c :: mkAbbrevPat cs seen

/-- Matcher for one abbreviation: word boundary on the left (every key
starts with a letter, so the boundary requires a non-word predecessor),
then the key pattern; no right boundary in the source regex. -/
def tryAbbrev (pat : List PatElem) (rep : List Char)
    (prev : Option Char) (l : List Char) : Option (List Char × Nat) :=
  if wordOpt prev then none
  else (matchPat pat l).map (fun n => (rep, n))

/-- Step 1 of `preprocessText`: fold the abbreviation table, one full
replacement pass per entry, in table order. -/
def stageAbbrev (l : List Char) : List Char :=
  abbreviationPairs.foldl
    (fun acc pr => runPass (tryAbbrev (mkAbbrevPat pr.1.data false) pr.2.data) acc) l

/-- The ordinal lookup table of `preprocessText` step 2.  Note that the
source table has no entries for 26-29. -/
def ordinalPairs : List (String × String) :=
  [("1", "first"), ("2", "second"), ("3", "third"), ("4", "fourth"),
   ("5", "fifth"), ("6", "sixth"), ("7", "seventh"), ("8", "eighth"),
   ("9", "ninth"), ("10", "tenth"), ("11", "eleventh"), ("12", "twelfth"),
   ("13", "thirteenth"), ("14", "fourteenth"), ("15", "fifteenth"),
   ("16", "sixteenth"), ("17", "seventeenth"), ("18", "eighteenth"),
   ("19", "nineteenth"), ("20", "twentieth"), ("21", "twenty-first"),
   ("22", "twenty-second"), ("23", "twenty-third"), ("24", "twenty-fourth"),
   ("25", "twenty-fifth"), ("30", "thirtieth"), ("31", "thirty-first")]

/-- Association-list lookup on the digit string matched by the regex. -/
def lookupAssoc : List (String × String) → List Char → Option (List Char)
  | [], _ => none
  | (k, v) :: rest, d => if k.data = d then some v.data else lookupAssoc rest d

/-- The four ordinal suffixes accepted by the regex alternation. -/
def ordinalSuffixes : List (List Char) :=
  [['s', 't'], ['n', 'd'], ['r', 'd'], ['t', 'h']]

/-- Matcher for the ordinal regex: word boundary, one-or-more digits
(greedy; backtracking cannot help because no suffix starts with a
digit), one of the four suffixes, then a word boundary.  The
replacement is the table entry for the digit string, or the whole match
unchanged when the table has no entry. -/
def tryOrdinal (prev : Option Char) (l : List Char) : Option (List Char × Nat) :=
  if wordOpt prev then none
  else
    let d := l.takeWhile isDigitChar
    if d.isEmpty then none
    else
      match l.drop d.length with
      | a :: b :: rest2 =>
          if [a, b] ∈ ordinalSuffixes then
            if wordHead rest2 then none
            else some ((lookupAssoc ordinalPairs d).getD (d ++ [a, b]), d.length + 2)
          else none
      | _ => none

/-- Step 2 of `preprocessText`: ordinal expansion. -/
def stageOrdinal (l : List Char) : List Char := runPass tryOrdinal l

/-- The ordinal pass on its own, on strings. -/
def replaceOrdinals (s : String) : String := ⟨stageOrdinal s.data⟩

/-- Matcher for one currency regex: the symbol followed by one-or-more
digits, replaced by the digits, a space and the currency word.  No word
boundaries in the source regex. -/
def tryCurrency (sym : Char) (word : List Char)
    (_prev : Option Char) (l : List Char) : Option (List Char × Nat) :=
  match l with
  | [] => none
  | c :: rest =>
      if c = sym then
        let d := rest.takeWhile isDigitChar
        if d.isEmpty then none else some (d ++ ' ' :: word, 1 + d.length)
      else none

/-- Step 2b of `preprocessText`: the three currency passes, dollar then
pound then euro, in source order. -/
def stageCurrency (l : List Char) : List Char :=
  runPass (tryCurrency '€' "euros".data)
    (runPass (tryCurrency '£' "pounds".data)
      (runPass (tryCurrency '$' "dollars".data) l))

/-- The acronym table of `preprocessText` step 3, in source order. -/
def acronymPairs : List (String × String) :=
  [("PDF", "P D F"), ("HTML", "H T M L"), ("CSS", "C S S"), ("API", "A P I"),
   ("URL", "U R L"), ("HTTP", "H T T P"), ("HTTPS", "H T T P S"),
   ("FAQ", "F A Q"), ("CEO", "C E O"), ("CFO", "C F O"), ("CTO", "C T O"),
   ("USA", "U S A"), ("UK", "U K"), ("EU", "E U"), ("NASA", "N A S A"),
   ("FBI", "F B I"), ("CIA", "C I A")]

/-- Matcher for one acronym: word boundaries on both sides of the
literal key. -/
def tryAcronym (pat rep : List Char) (prev : Option Char) (l : List Char) :
    Option (List Char × Nat) :=
  if wordOpt prev then none
  else
    match matchPat (pat.map PatElem.lit) l with
    | some n => if wordHead (l.drop n) then none else some (rep, n)
    | none => none

/-- Step 3 of `preprocessText`: fold the acronym table, one pass per
entry, in table order. -/
def stageAcronym (l : List Char) : List Char :=
  acronymPairs.foldl
    (fun acc pr => runPass (tryAcronym pr.1.data pr.2.data) acc) l

/-- Step 4a: remove every tilde and caret (character-class replacement
by the empty string is a filter). -/
def removeTildeCaret (l : List Char) : List Char :=
  l.filter (fun c => ¬(c = '~' ∨ c = '^'))

/-- Matcher for a run-collapsing regex: at a `ch`, the greedy run of
`ch`; a match requires the run to have length at least `lo`, and the
whole run is replaced by `rep`. -/
def tryRun (ch : Char) (lo : Nat) (rep : List Char)
    (_prev : Option Char) (l : List Char) : Option (List Char × Nat) :=
  match l with
  | [] => none
  | c :: _ =>
      if c = ch then
        let r := l.takeWhile (fun x => x = ch)
        if lo ≤ r.length then some (rep, r.length) else none
      else none

/-- Step 4e: underscores become spaces. -/
def underscoreToSpace (l : List Char) : List Char :=
  l.map (fun c => if c = '_' then ' ' else c)

/-- Step 4 of `preprocessText`: noise-character cleanup, in source
order: drop tildes and carets, collapse runs of 4+ periods to an
ellipsis of 3, runs of 2+ exclamation or question marks to one, and
replace underscores by spaces. -/
def stageCleanup (l : List Char) : List Char :=
  underscoreToSpace
    (runPass (tryRun '?' 2 ['?'])
      (runPass (tryRun '!' 2 ['!'])
        (runPass (tryRun '.' 4 ['.', '.', '.'])
          (removeTildeCaret l))))

/-- Matcher collapsing a whitespace run to a single space. -/
def tryWsRun (_prev : Option Char) (l : List Char) : Option (List Char × Nat) :=
  match l with
  | [] => none
  | c :: _ =>
      if isWsChar c then some ([' '], (l.takeWhile isWsChar).length) else none

/-- JavaScript `trim`: drop leading and trailing whitespace. -/
def jsTrim (l : List Char) : List Char :=
  ((l.dropWhile isWsChar).reverse.dropWhile isWsChar).reverse

/-- Step 5 of `preprocessText`: collapse whitespace runs to single
spaces, then trim. -/
def stageWs (l : List Char) : List Char := jsTrim (runPass tryWsRun l)

/-- Embeds `preprocessText` (source lines 152-242): the full
normalization pipeline, stages applied in source order. -/
def preprocessText (s : String) : String :=
  ⟨stageWs (stageCleanup (stageAcronym (stageCurrency (stageOrdinal (stageAbbrev s.data)))))⟩

example : preprocessText "Dr. Smith lives at 1 St. and paid $5." =
    "Doctor Smith lives at 1 Street and paid 5 dollars." := by decide

example : replaceOrdinals "the 21st day" = "the twenty-first day" := by decide

example : replaceOrdinals "the 26th day" = "the 26th day" := by decide

/-- Does `hay` start with `pat`? -/
def startsWithSeq : List Char → List Char → Bool
  | [], _ => true
  | _ :: _, [] => false
  | p :: ps, c :: cs => p = c && startsWithSeq ps cs

/-- JavaScript `includes`: does `pat` occur contiguously in `hay`? -/
def containsSeq (pat : List Char) : List Char → Bool
  | [] => startsWithSeq pat []
  | c :: cs => startsWithSeq pat (c :: cs) || containsSeq pat cs

example : containsSeq "b c".data "a b c d".data = true := by decide

/-- Claim C3 counterexample: the abbreviation stage rewrites the
standalone "St." to "Street" before the ordinal stage runs, so the
digit 1 is never adjacent to an ordinal suffix and stays a digit: the
normalized output is "Doctor Smith lives at 1 Street and paid
5 dollars.", which does not contain the claimed
"... first Street ..." text. -/
theorem preprocess_example_no_first :
    preprocessText "Dr. Smith lives at 1 St. and paid $5." =
      "Doctor Smith lives at 1 Street and paid 5 dollars." ∧
    containsSeq "Doctor Smith lives at first Street and paid 5 dollars.".data
      (preprocessText "Dr. Smith lives at 1 St. and paid $5.").data = false := by
  decide

/-- Claim C3 (amended): normalizing "Dr. Smith lives at 1 St. and paid
$5." with the default normalizer produces an output that contains
"Doctor Smith lives at 1 Street and paid 5 dollars." (the "1" keeps its
digit form: "St." is expanded to "Street" before the ordinal rule looks
for a digit-plus-suffix token, so no ordinal rewrite applies). -/
theorem preprocess_example_contains :
    containsSeq "Doctor Smith lives at 1 Street and paid 5 dollars.".data
      (preprocessText "Dr. Smith lives at 1 St. and paid $5.").data = true := by
  decide

/-- The normalized text contains nothing further for any stage of the
pipeline to expand: every stage of `preprocessText` fixes it. -/
def noFurtherExpansions (p : String) : Prop :=
  stageAbbrev p.data = p.data ∧ stageOrdinal p.data = p.data ∧
  stageCurrency p.data = p.data ∧ stageAcronym p.data = p.data ∧
  stageCleanup p.data = p.data ∧ stageWs p.data = p.data

/-- Claim C7 counterexample: one pass turns the input of two dollar
signs and a 5 into "$5 dollars"; that output contains no further
expandable abbreviation (the abbreviation stage fixes it), yet a second
pass rewrites it again — the currency rule now matches the leftover
dollar sign — so normalization is not idempotent under the claim's
abbreviations-only proviso. -/
theorem preprocess_not_idempotent :
    stageAbbrev (preprocessText "$$5").data = (preprocessText "$$5").data ∧
    preprocessText (preprocessText "$$5") ≠ preprocessText "$$5" := by
  decide

/-- Claim C7 (amended): normalization is idempotent on every input
whose one-pass normalization contains no further expandable pattern of
any normalizer stage (abbreviations, ordinals, currency, acronyms,
noise characters, collapsible whitespace):
`preprocessText (preprocessText x) = preprocessText x` whenever
`noFurtherExpansions (preprocessText x)`. -/
theorem preprocess_idempotent (x : String)
    (h : noFurtherExpansions (preprocessText x)) :
    preprocessText (preprocessText x) = preprocessText x := by
  obtain ⟨h1, h2, h3, h4, h5, h6⟩ := h
  show (⟨stageWs (stageCleanup (stageAcronym (stageCurrency
      (stageOrdinal (stageAbbrev (preprocessText x).data)))))⟩ : String) =
    preprocessText x
  rw [h1, h2, h3, h4, h5, h6]

/-- Witness for `preprocess_idempotent`: "Dr. Smith" normalizes to
"Doctor Smith", which no stage changes, and a second pass is the
identity on it. -/
theorem preprocess_idempotent_witness :
    noFurtherExpansions (preprocessText "Dr. Smith") ∧
    preprocessText (preprocessText "Dr. Smith") = preprocessText "Dr. Smith" :=
  have h : noFurtherExpansions (preprocessText "Dr. Smith") :=
    ⟨by decide, by decide, by decide, by decide, by decide, by decide⟩
  ⟨h, preprocess_idempotent "Dr. Smith" h⟩

/-! ## Canonical decimal digit strings

Spec-side helpers for claim C2: the canonical decimal digit string of a
natural number, with a proven round trip through `decodeDigits`, so
facts about the ordinal table keyed by digit strings transfer to facts
about the numbers the strings denote. -/

/-- The ASCII digit for one decimal digit value. -/
def digitChar : Nat → Char
  | 0 => '0'
  | 1 => '1'
  | 2 => '2'
  | 3 => '3'
  | 4 => '4'
  | 5 => '5'
  | 6 => '6'
  | 7 => '7'
  | 8 => '8'
  | 9 => '9'
  | _ => '0'

/-- Decimal digits of `n`, most significant first; the fuel makes the
recursion structural (any `fuel > n` is enough since `n / 10 < n`). -/
def natDigitsF : Nat → Nat → List Char
  | 0, _ => []
  | fuel + 1, n =>
      if n < 10 then [digitChar n]
      else natDigitsF fuel (n / 10) ++ [digitChar (n % 10)]

/-- The canonical decimal digit string of `n`. -/
def natDigits (n : Nat) : List Char := natDigitsF (n + 1) n

/-- Reads a digit string back as a number. -/
def decodeDigits (l : List Char) : Nat :=
  l.foldl (fun a c => a * 10 + (c.toNat - 48)) 0

theorem digitChar_toNat {m : Nat} (h : m < 10) : (digitChar m).toNat = 48 + m := by
  interval_cases m <;> rfl

theorem isDigitChar_digitChar {m : Nat} (h : m < 10) :
    isDigitChar (digitChar m) = true := by
  interval_cases m <;> rfl

theorem natDigitsF_ne_nil : ∀ (fuel n : Nat), n < fuel → natDigitsF fuel n ≠ []
  | 0, n, h => absurd h (by omega)
  | fuel + 1, n, _ => by
      unfold natDigitsF
      split_ifs <;> simp

theorem natDigitsF_all_digits : ∀ (fuel n : Nat), n < fuel →
    ∀ c ∈ natDigitsF fuel n, isDigitChar c = true
  | 0, n, h => absurd h (by omega)
  | fuel + 1, n, h => by
      unfold natDigitsF
      split_ifs with h10
      · intro c hc
        rw [List.mem_singleton] at hc
        subst hc
        exact isDigitChar_digitChar h10
      · intro c hc
        rcases List.mem_append.mp hc with hc | hc
        · have hdiv : n / 10 < fuel := by
            have := Nat.div_lt_self (show 0 < n by omega) (show 1 < 10 by omega)
            omega
          exact natDigitsF_all_digits fuel (n / 10) hdiv c hc
        · rw [List.mem_singleton] at hc
          subst hc
          exact isDigitChar_digitChar (Nat.mod_lt _ (by omega))

theorem decode_natDigitsF : ∀ (fuel n : Nat), n < fuel →
    decodeDigits (natDigitsF fuel n) = n
  | 0, n, h => absurd h (by omega)
  | fuel + 1, n, h => by
      unfold natDigitsF
      split_ifs with h10
      · show 0 * 10 + ((digitChar n).toNat - 48) = n
        rw [digitChar_toNat h10]
        omega
      · have hdiv : n / 10 < fuel := by
          have := Nat.div_lt_self (show 0 < n by omega) (show 1 < 10 by omega)
          omega
        have ih := decode_natDigitsF fuel (n / 10) hdiv
        show List.foldl _ 0 (natDigitsF fuel (n / 10) ++ [digitChar (n % 10)]) = n
        rw [List.foldl_append]
        show decodeDigits (natDigitsF fuel (n / 10)) * 10 +
          ((digitChar (n % 10)).toNat - 48) = n
        rw [ih, digitChar_toNat (Nat.mod_lt _ (by omega))]
        omega

theorem natDigits_ne_nil (n : Nat) : natDigits n ≠ [] :=
  natDigitsF_ne_nil _ _ (Nat.lt_succ_self n)

theorem natDigits_all_digits (n : Nat) :
    ∀ c ∈ natDigits n, isDigitChar c = true :=
  natDigitsF_all_digits _ _ (Nat.lt_succ_self n)

theorem decode_natDigits (n : Nat) : decodeDigits (natDigits n) = n :=
  decode_natDigitsF _ _ (Nat.lt_succ_self n)

theorem natDigitsF_length_ge2 : ∀ (fuel n : Nat), n < fuel → 10 ≤ n →
    2 ≤ (natDigitsF fuel n).length
  | 0, n, h, _ => absurd h (by omega)
  | fuel + 1, n, h, h10 => by
      unfold natDigitsF
      rw [if_neg (by omega)]
      have hdiv : n / 10 < fuel := by
        have := Nat.div_lt_self (show 0 < n by omega) (show 1 < 10 by omega)
        omega
      have hne := natDigitsF_ne_nil fuel (n / 10) hdiv
      have hpos : 1 ≤ (natDigitsF fuel (n / 10)).length := List.length_pos.mpr hne
      rw [List.length_append]
      simp only [List.length_singleton]
      omega

theorem natDigits_length_ge3 {n : Nat} (h : 100 ≤ n) : 3 ≤ (natDigits n).length := by
  show 3 ≤ (natDigitsF (n + 1) n).length
  unfold natDigitsF
  rw [if_neg (by omega)]
  have hdiv : n / 10 < n := Nat.div_lt_self (by omega) (by omega)
  have h2 := natDigitsF_length_ge2 n (n / 10) (by omega) (by omega)
  rw [List.length_append]
  simp only [List.length_singleton]
  omega

theorem lookupAssoc_mem : ∀ (ps : List (String × String)) (d v : List Char),
    lookupAssoc ps d = some v → ∃ kv ∈ ps, kv.1.data = d
  | [], _, _, h => by cases h
  | (k, w) :: rest, d, v, h => by
      unfold lookupAssoc at h
      split_ifs at h with hk
      · exact ⟨(k, w), List.mem_cons_self _ _, hk⟩
      · obtain ⟨kv, hmem, hd⟩ := lookupAssoc_mem rest d v h
        exact ⟨kv, List.mem_cons_of_mem _ hmem, hd⟩

theorem ordinal_keys_short : ∀ kv ∈ ordinalPairs, kv.1.data.length ≤ 2 := by decide

theorem lookup_none_of_ge100 {n : Nat} (h : 100 ≤ n) :
    lookupAssoc ordinalPairs (natDigits n) = none := by
  cases hl : lookupAssoc ordinalPairs (natDigits n) with
  | none => rfl
  | some v =>
      exfalso
      obtain ⟨kv, hmem, hd⟩ := lookupAssoc_mem _ _ _ hl
      have h2 := ordinal_keys_short kv hmem
      rw [hd] at h2
      have h3 := natDigits_length_ge3 h
      omega

theorem lookup_small_none : ∀ n : Nat, n < 100 →
    (26 ≤ n ∧ n ≤ 29) ∨ n = 0 ∨ 31 < n →
    lookupAssoc ordinalPairs (natDigits n) = none := by decide

theorem lookup_supported_isSome : ∀ n : Nat, n < 32 →
    (1 ≤ n ∧ n ≤ 25) ∨ n = 30 ∨ n = 31 →
    (lookupAssoc ordinalPairs (natDigits n)).isSome = true := by decide

/-! ## The ordinal pass on a standalone token -/

theorem takeWhile_append_all {p : Char → Bool} :
    ∀ (xs : List Char) (y : Char) (ys : List Char),
    (∀ c ∈ xs, p c = true) → p y = false →
    (xs ++ y :: ys).takeWhile p = xs
  | [], y, ys, _, hy => by simp [List.takeWhile, hy]
  | x :: xs, y, ys, hall, hy => by
      have hx : p x = true := hall x (List.mem_cons_self _ _)
      simp only [List.cons_append, List.takeWhile_cons, hx, if_true]
      rw [takeWhile_append_all xs y ys (fun c hc => hall c (List.mem_cons_of_mem _ hc)) hy]

theorem scanRepF_nil (f : Option Char → List Char → Option (List Char × Nat)) :
    ∀ (fuel : Nat) (prev : Option Char), scanRepF f fuel prev [] = []
  | 0, _ => rfl
  | _ + 1, _ => rfl

/-- When the matcher consumes the whole input at position 0, the pass
output is exactly the replacement. -/
theorem scanRepF_full_match (f : Option Char → List Char → Option (List Char × Nat))
    (prev : Option Char) (l rep : List Char) (hne : l ≠ [])
    (hmatch : f prev l = some (rep, l.length)) :
    scanRepF f l.length prev l = rep := by
  cases l with
  | nil => exact absurd rfl hne
  | cons c cs =>
      show scanRepF f (cs.length + 1) prev (c :: cs) = rep
      unfold scanRepF
      rw [hmatch]
      simp only [List.length_cons]
      rw [if_neg (by omega)]
      rw [show ((c :: cs).drop (cs.length + 1)) = [] from List.drop_length _]
      rw [scanRepF_nil, List.append_nil]

/-- The matcher of the ordinal regex on a standalone digits-plus-suffix
token: it fires at position 0 and consumes the whole token. -/
theorem tryOrdinal_token (d : List Char) (a b : Char) (hd : d ≠ [])
    (hdig : ∀ c ∈ d, isDigitChar c = true) (ha : isDigitChar a = false)
    (hsuf : [a, b] ∈ ordinalSuffixes) :
    tryOrdinal none (d ++ [a, b]) =
      some ((lookupAssoc ordinalPairs d).getD (d ++ [a, b]), d.length + 2) := by
  unfold tryOrdinal
  rw [if_neg (by simp [wordOpt])]
  have ht : (d ++ [a, b]).takeWhile isDigitChar = d :=
    takeWhile_append_all d a [b] hdig ha
  rw [ht]
  rw [if_neg (by simp [hd])]
  rw [show (d ++ [a, b]).drop d.length = [a, b] from List.drop_left d [a, b]]
  dsimp only
  rw [if_pos hsuf]
  rw [if_neg (by simp [wordHead])]

/-- The ordinal pass rewrites a token that is exactly digits plus one of
the four suffixes into the table entry for the digits, or leaves it
unchanged when the table has no entry for them. -/
theorem stageOrdinal_token (d suf : List Char) (hd : d ≠ [])
    (hdig : ∀ c ∈ d, isDigitChar c = true) (hsuf : suf ∈ ordinalSuffixes) :
    stageOrdinal (d ++ suf) = (lookupAssoc ordinalPairs d).getD (d ++ suf) := by
  have hlen : (d ++ suf).length = d.length + 2 := by
    fin_cases hsuf <;> simp [List.length_append]
  have hne : d ++ suf ≠ [] := by
    intro h
    exact hd (List.append_eq_nil.mp h).1
  have hmatch : tryOrdinal none (d ++ suf) =
      some ((lookupAssoc ordinalPairs d).getD (d ++ suf), (d ++ suf).length) := by
    rw [hlen]
    fin_cases hsuf <;> exact tryOrdinal_token d _ _ hd hdig (by decide) (by decide)
  show runPass tryOrdinal (d ++ suf) = _
  unfold runPass
  exact scanRepF_full_match _ _ _ _ hne hmatch

/-- Claim C2 counterexample: 26 lies in the claimed range 1..31, but
the source table has no entry for 26, so the standalone token "26th" is
left unmodified by the ordinal pass instead of being rewritten to a
word form. -/
theorem ordinal_26_unmodified :
    (1 ≤ 26 ∧ 26 ≤ 31) ∧ replaceOrdinals "26th" = "26th" := by decide

/-- Claim C2 (amended): for every `n`, a standalone token of the
canonical digits of `n` followed by one of st, nd, rd, th is rewritten
by the ordinal pass to the table word for `n` exactly when the table
supports `n` — that is, for `n` in 1..25, 30 or 31 — and is left
unmodified for every other value (26-29, 0, and everything above 31,
which have no table entry). -/
theorem ordinal_token_spec (n : Nat) (suf : List Char)
    (hsuf : suf ∈ ordinalSuffixes) :
    replaceOrdinals ⟨natDigits n ++ suf⟩ =
      ⟨(lookupAssoc ordinalPairs (natDigits n)).getD (natDigits n ++ suf)⟩ ∧
    ((1 ≤ n ∧ n ≤ 25) ∨ n = 30 ∨ n = 31 →
      ∃ w, lookupAssoc ordinalPairs (natDigits n) = some w) ∧
    ((26 ≤ n ∧ n ≤ 29) ∨ n = 0 ∨ 31 < n →
      lookupAssoc ordinalPairs (natDigits n) = none) := by
  refine ⟨?_, ?_, ?_⟩
  · show (⟨stageOrdinal (natDigits n ++ suf)⟩ : String) = _
    rw [stageOrdinal_token (natDigits n) suf (natDigits_ne_nil n)
      (natDigits_all_digits n) hsuf]
  · intro hsupp
    have hn32 : n < 32 := by omega
    exact Option.isSome_iff_exists.mp (lookup_supported_isSome n hn32 hsupp)
  · intro hout
    rcases Nat.lt_or_ge n 100 with hlt | hge
    · exact lookup_small_none n hlt hout
    · exact lookup_none_of_ge100 hge

/-- Witness for `ordinal_token_spec`: 21 with suffix st is rewritten to
the table word, and 26 has no table entry. -/
theorem ordinal_token_spec_witness :
    replaceOrdinals ⟨natDigits 21 ++ ['s', 't']⟩ =
      ⟨(lookupAssoc ordinalPairs (natDigits 21)).getD (natDigits 21 ++ ['s', 't'])⟩ ∧
    (∃ w, lookupAssoc ordinalPairs (natDigits 21) = some w) ∧
    lookupAssoc ordinalPairs (natDigits 26) = none :=
  have h1 := ordinal_token_spec 21 ['s', 't'] (by decide)
  have h2 := ordinal_token_spec 26 ['t', 'h'] (by decide)
  ⟨h1.1, h1.2.1 (Or.inl (by omega)), h2.2.2 (Or.inl (by omega))⟩

/-! ## Natural pauses and the chunk splitter -/

/-- The transitional phrases of `addNaturalPauses`, in source order. -/
def transitionsList : List String :=
  ["However", "Therefore", "Furthermore", "Moreover", "Nevertheless",
   "Additionally", "Consequently", "Subsequently", "Meanwhile",
   "In addition", "For example", "For instance", "In fact", "In contrast",
   "On the other hand", "As a result", "In conclusion", "Finally"]

/-- Matcher for one transition regex: case-insensitive word-bounded
literal not already followed by a comma; the replacement is the
canonical spelling from the list plus a comma (the `gi` regex matches
any casing but the template always inserts the list spelling). -/
def tryTransition (pat : List Char) (prev : Option Char) (l : List Char) :
    Option (List Char × Nat) :=
  if wordOpt prev then none
  else
    match matchLitsCI pat l with
    | some n =>
        let rest := l.drop n
        if wordHead rest then none
        else if rest.head? = some ',' then none
        else some (pat ++ [','], n)
    | none => none

/-- Matcher for a punctuation-spacing regex: one character of the class
followed by the greedy (possibly empty) whitespace run, replaced by the
character and a single space. -/
def tryPunctSpace (pset : List Char) (_prev : Option Char) (l : List Char) :
    Option (List Char × Nat) :=
  match l with
  | [] => none
  | c :: rest =>
      if c ∈ pset then some ([c, ' '], 1 + (rest.takeWhile isWsChar).length)
      else none

/-- Embeds `addNaturalPauses` (source lines 300-327): one pass per
transition phrase in list order, then spacing normalization after
sentence terminators, commas, colons and semicolons, then whitespace
collapse and trim. -/
def addNaturalPauses (s : String) : String :=
  let t1 := transitionsList.foldl
    (fun acc tr => runPass (tryTransition tr.data) acc) s.data
  let t2 := runPass (tryPunctSpace ['.', '!', '?']) t1
  let t3 := runPass (tryPunctSpace [',']) t2
  let t4 := runPass (tryPunctSpace [':']) t3
  let t5 := runPass (tryPunctSpace [';']) t4
  ⟨jsTrim (runPass tryWsRun t5)⟩

/-- Sentence terminator characters of the splitting regex. -/
def isTerm (c : Char) : Bool := c = '.' || c = '!' || c = '?'

/-- The matches of the sentence regex (a greedy run of non-terminators
followed by a greedy run of one-or-more terminators); positions where
no match can start are skipped, as the regex engine does.  The fuel
makes the recursion structural; every step consumes at least one
character, so `fuel = l.length` always suffices and the function is
total. -/
def sentencesOfF : Nat → List Char → List (List Char)
  | 0, _ => []
  | fuel + 1, l =>
      match l with
      | [] => []
      | c :: cs =>
          if isTerm c then sentencesOfF fuel cs
          else
            let a := l.takeWhile (fun x => !(isTerm x))
            let r := l.drop a.length
            let b := r.takeWhile isTerm
            if b.isEmpty then []
            else (a ++ b) :: sentencesOfF fuel (r.drop b.length)

/-- All sentence matches of the text. -/
def sentencesOf (l : List Char) : List (List Char) := sentencesOfF l.length l

/-- JavaScript `join` with a single space. -/
def joinSpaces : List (List Char) → List Char
  | [] => []
  | [x] => x
  | x :: xs => x ++ ' ' :: joinSpaces xs

/-- The grouping loop of `splitTextIntoChunks` (source lines 350-365):
push the trimmed sentence onto the current group; once the group holds
`maxS` sentences, or at the last sentence, join the group with single
spaces, trim it, and emit it when non-empty. -/
def chunkLoop (maxS : Nat) : List (List Char) → List (List Char) → List (List Char)
  | _, [] => []
  | cur, s :: rest =>
      let cur2 := cur ++ [jsTrim s]
      if maxS ≤ cur2.length ∨ rest = [] then
        let chunk := jsTrim (joinSpaces cur2)
        (if chunk = [] then [] else [chunk]) ++ chunkLoop maxS [] rest
      else chunkLoop maxS cur2 rest

/-- Embeds `splitTextIntoChunks` (source lines 336-369). -/
def splitTextIntoChunks (s : String) (maxS : Nat) : List String :=
  let enhanced := (addNaturalPauses s).data
  let sentences := sentencesOf enhanced
  if sentences.isEmpty then [(⟨enhanced⟩ : String)]
  else
    let chunks := chunkLoop maxS [] sentences
    if chunks.isEmpty then [(⟨enhanced⟩ : String)]
    else chunks.map (fun l => (⟨l⟩ : String))

example : splitTextIntoChunks "A. B. C. D." 2 = ["A. B.", "C. D."] := by decide

example : splitTextIntoChunks "However" 2 = ["However,"] := by decide

example : splitTextIntoChunks "   " 3 = [""] := by decide

example : addNaturalPauses "for example x" = "For example, x" := by decide

example : splitTextIntoChunks "one two three" 3 = ["one two three"] := by decide

/-! ## Trimming lemmas -/

theorem mem_dropWhile_of_mem {p : Char → Bool} :
    ∀ {l : List Char} {c : Char}, c ∈ l → p c = false → c ∈ l.dropWhile p
  | x :: xs, c, hc, hpc => by
      rw [List.dropWhile_cons]
      split_ifs with hx
      · rcases List.mem_cons.mp hc with rfl | hc2
        · rw [hpc] at hx; cases hx
        · exact mem_dropWhile_of_mem hc2 hpc
      · exact hc

theorem mem_jsTrim_of_mem {l : List Char} {c : Char} (hc : c ∈ l)
    (hpc : isWsChar c = false) : c ∈ jsTrim l := by
  unfold jsTrim
  rw [List.mem_reverse]
  apply mem_dropWhile_of_mem _ hpc
  rw [List.mem_reverse]
  exact mem_dropWhile_of_mem hc hpc

theorem jsTrim_ne_nil {l : List Char} {c : Char} (hc : c ∈ l)
    (hpc : isWsChar c = false) : jsTrim l ≠ [] :=
  List.ne_nil_of_mem (mem_jsTrim_of_mem hc hpc)

theorem dropWhile_idem {p : Char → Bool} :
    ∀ l : List Char, (l.dropWhile p).dropWhile p = l.dropWhile p
  | [] => rfl
  | x :: xs => by
      rw [List.dropWhile_cons]
      split_ifs with hx
      · exact dropWhile_idem xs
      · rw [List.dropWhile_cons, if_neg hx]

theorem head_dropWhile_false {p : Char → Bool} :
    ∀ (l : List Char) {c : Char} {cs : List Char},
      l.dropWhile p = c :: cs → p c = false
  | [], _, _, h => by cases h
  | x :: xs, c, cs, h => by
      rw [List.dropWhile_cons] at h
      split_ifs at h with hx
      · exact head_dropWhile_false xs h
      · cases h
        simpa using hx

theorem jsTrim_idem (l : List Char) : jsTrim (jsTrim l) = jsTrim l := by
  set d := l.dropWhile isWsChar with hd
  have hr : jsTrim l = (d.reverse.dropWhile isWsChar).reverse := rfl
  -- the reversed trimmed string is already dropWhile-stable
  have hback : (jsTrim l).reverse.dropWhile isWsChar = (jsTrim l).reverse := by
    rw [hr, List.reverse_reverse]
    exact dropWhile_idem _
  -- the trimmed string is a prefix of d, hence its head is non-whitespace
  have hfront : (jsTrim l).dropWhile isWsChar = jsTrim l := by
    have hsuf : d.reverse.dropWhile isWsChar <:+ d.reverse :=
      List.dropWhile_suffix _
    have hpre : (d.reverse.dropWhile isWsChar).reverse <+: d := by
      have := List.reverse_prefix.mpr hsuf
      rwa [List.reverse_reverse] at this
    rw [hr]
    obtain ⟨t, ht⟩ := hpre
    cases he : (d.reverse.dropWhile isWsChar).reverse with
    | nil => rfl
    | cons c cs =>
        rw [he] at ht
        have hdc : d = c :: (cs ++ t) := by rw [← ht]; rfl
        have hcw : isWsChar c = false := head_dropWhile_false l (hd ▸ hdc)
        rw [List.dropWhile_cons, if_neg (by simp [hcw])]
  show (((jsTrim l).dropWhile isWsChar).reverse.dropWhile isWsChar).reverse = jsTrim l
  rw [hfront, hback, List.reverse_reverse]

theorem jsTrim_all_ws {l : List Char} (h : ∀ c ∈ l, isWsChar c = true) :
    jsTrim l = [] := by
  unfold jsTrim
  rw [List.dropWhile_eq_nil_iff.mpr h]
  rfl

/-! ## No-op passes on all-whitespace text -/

theorem scanRepF_noop (f : Option Char → List Char → Option (List Char × Nat))
    (hf : ∀ (prev : Option Char) (c : Char) (cs : List Char),
      isWsChar c = true → f prev (c :: cs) = none) :
    ∀ (fuel : Nat) (prev : Option Char) (l : List Char),
      (∀ c ∈ l, isWsChar c = true) → scanRepF f fuel prev l = l
  | 0, _, l, _ => rfl
  | _ + 1, _, [], _ => rfl
  | fuel + 1, prev, c :: cs, hl => by
      unfold scanRepF
      rw [hf prev c cs (hl c (List.mem_cons_self _ _))]
      rw [scanRepF_noop f hf fuel (some c) cs
        (fun x hx => hl x (List.mem_cons_of_mem _ hx))]

theorem runPass_noop (f : Option Char → List Char → Option (List Char × Nat))
    (hf : ∀ (prev : Option Char) (c : Char) (cs : List Char),
      isWsChar c = true → f prev (c :: cs) = none)
    (l : List Char) (hl : ∀ c ∈ l, isWsChar c = true) : runPass f l = l :=
  scanRepF_noop f hf l.length none l hl

theorem isWsChar_cases {c : Char} (h : isWsChar c = true) :
    c = ' ' ∨ c = '\t' ∨ c = '\n' ∨ c = '\r' ∨ c = '\x0b' ∨ c = '\x0c' := by
  simpa [isWsChar, or_assoc] using h

theorem tryTransition_ws {t : String} (ht : t ∈ transitionsList) :
    ∀ (prev : Option Char) (c : Char) (cs : List Char),
      isWsChar c = true → tryTransition t.data prev (c :: cs) = none := by
  fin_cases ht <;> intro prev c cs h <;>
    rcases isWsChar_cases h with rfl | rfl | rfl | rfl | rfl | rfl <;>
      simp [tryTransition, matchLitsCI]

theorem tryPunctSpace_ws {pset : List Char}
    (hsub : ∀ x ∈ pset, isWsChar x = false) :
    ∀ (prev : Option Char) (c : Char) (cs : List Char),
      isWsChar c = true → tryPunctSpace pset prev (c :: cs) = none := by
  intro prev c cs h
  unfold tryPunctSpace
  dsimp only
  rw [if_neg]
  intro hmem
  have := hsub c hmem
  rw [h] at this
  cases this

theorem foldl_transitions_noop (ts : List String) (l : List Char)
    (hl : ∀ c ∈ l, isWsChar c = true)
    (hts : ∀ t ∈ ts, t ∈ transitionsList) :
    ts.foldl (fun acc tr => runPass (tryTransition tr.data) acc) l = l := by
  induction ts with
  | nil => rfl
  | cons t ts ih =>
      rw [List.foldl_cons,
        runPass_noop _ (tryTransition_ws (hts t (List.mem_cons_self _ _))) l hl]
      exact ih (fun u hu => hts u (List.mem_cons_of_mem _ hu))

theorem scanRepF_wsRun_all :
    ∀ (fuel : Nat) (prev : Option Char) (l : List Char),
      (∀ c ∈ l, isWsChar c = true) →
      ∀ c ∈ scanRepF tryWsRun fuel prev l, isWsChar c = true
  | 0, _, l, hl => hl
  | _ + 1, _, [], _ => by intro c hc; cases hc
  | fuel + 1, prev, c :: cs, hl => by
      intro x hx
      unfold scanRepF at hx
      have hc : isWsChar c = true := hl c (List.mem_cons_self _ _)
      have htry : tryWsRun prev (c :: cs) =
          some ([' '], ((c :: cs).takeWhile isWsChar).length) := by
        unfold tryWsRun
        dsimp only
        rw [if_pos hc]
      rw [htry] at hx
      dsimp only at hx
      have hall : ∀ y ∈ (c :: cs).drop ((c :: cs).takeWhile isWsChar).length,
          isWsChar y = true :=
        fun y hy => hl y (List.drop_subset _ _ hy)
      split_ifs at hx with h0
      · rcases List.mem_cons.mp hx with rfl | hx2
        · exact hc
        · exact scanRepF_wsRun_all fuel (some c) cs
            (fun y hy => hl y (List.mem_cons_of_mem _ hy)) x hx2
      · rcases List.mem_append.mp hx with hx1 | hx2
        · rw [List.mem_singleton] at hx1
          subst hx1
          rfl
        · exact scanRepF_wsRun_all fuel _ _ hall x hx2

/-- On whitespace-only input, every pass of `addNaturalPauses` is a
no-op until the whitespace collapse, which together with the final trim
produces the empty string. -/
theorem addNaturalPauses_ws (s : String)
    (h : ∀ c ∈ s.data, isWsChar c = true) : addNaturalPauses s = "" := by
  unfold addNaturalPauses
  dsimp only
  rw [foldl_transitions_noop transitionsList s.data h (fun t ht => ht)]
  rw [runPass_noop _ (tryPunctSpace_ws (by decide)) s.data h]
  rw [runPass_noop _ (tryPunctSpace_ws (by decide)) s.data h]
  rw [runPass_noop _ (tryPunctSpace_ws (by decide)) s.data h]
  rw [runPass_noop _ (tryPunctSpace_ws (by decide)) s.data h]
  have hall : ∀ c ∈ runPass tryWsRun s.data, isWsChar c = true :=
    scanRepF_wsRun_all s.data.length none s.data h
  show (⟨jsTrim (runPass tryWsRun s.data)⟩ : String) = ""
  rw [jsTrim_all_ws hall]

/-- The final trim of `addNaturalPauses` makes its output trim-stable. -/
theorem addNaturalPauses_trimmed (s : String) :
    jsTrim (addNaturalPauses s).data = (addNaturalPauses s).data := by
  unfold addNaturalPauses
  dsimp only
  exact jsTrim_idem _

/-! ## Sentences and grouping -/

theorem isTerm_not_ws {c : Char} (h : isTerm c = true) : isWsChar c = false := by
  have hc : c = '.' ∨ c = '!' ∨ c = '?' := by simpa [isTerm, or_assoc] using h
  rcases hc with rfl | rfl | rfl <;> rfl

/-- Every sentence produced by the sentence regex contains a
terminator (its terminator run is non-empty). -/
theorem mem_sentencesOfF_term :
    ∀ (fuel : Nat) (l s : List Char), s ∈ sentencesOfF fuel l →
      ∃ c ∈ s, isTerm c = true
  | 0, _, s, h => by cases h
  | fuel + 1, l, s, h => by
      unfold sentencesOfF at h
      cases l with
      | nil => cases h
      | cons c cs =>
          dsimp only at h
          split_ifs at h with hterm hb
          · exact mem_sentencesOfF_term fuel cs s h
          · cases h
          · rcases List.mem_cons.mp h with rfl | h2
            · have hbne : ((c :: cs).drop
                  ((c :: cs).takeWhile (fun x => !(isTerm x))).length).takeWhile isTerm
                  ≠ [] := by
                simpa [List.isEmpty_iff] using hb
              obtain ⟨x, hx⟩ := List.exists_mem_of_ne_nil _ hbne
              exact ⟨x, List.mem_append_right _ hx, List.mem_takeWhile_imp hx⟩
            · exact mem_sentencesOfF_term fuel _ s h2

theorem mem_sentencesOf_term {l s : List Char} (h : s ∈ sentencesOf l) :
    ∃ c ∈ s, isTerm c = true :=
  mem_sentencesOfF_term _ _ _ h

theorem mem_joinSpaces :
    ∀ {g : List (List Char)} {x : List Char} {c : Char},
      x ∈ g → c ∈ x → c ∈ joinSpaces g
  | [], _, _, hx, _ => by cases hx
  | [y], x, c, hx, hc => by
      rw [List.mem_singleton] at hx
      subst hx
      exact hc
  | y :: z :: zs, x, c, hx, hc => by
      show c ∈ y ++ ' ' :: joinSpaces (z :: zs)
      rcases List.mem_cons.mp hx with rfl | hx2
      · exact List.mem_append_left _ hc
      · exact List.mem_append_right _ (List.mem_cons_of_mem _ (mem_joinSpaces hx2 hc))

/-- Spec-side grouping: successive groups of `maxS` consecutive
sentences, by take and drop; fuel-structural with `fuel = l.length`
sufficient for any positive `maxS`. -/
def listChunksF : Nat → Nat → List (List Char) → List (List (List Char))
  | 0, _, _ => []
  | fuel + 1, maxS, l =>
      match l with
      | [] => []
      | _ :: _ => l.take maxS :: listChunksF fuel maxS (l.drop maxS)

def listChunks (maxS : Nat) (l : List (List Char)) : List (List (List Char)) :=
  listChunksF l.length maxS l

/-- The splitter as the specification words it: apply the pause pass,
segment the enhanced text into maximal non-terminator runs followed by
terminator runs; with no sentence the entire enhanced text is the
single chunk; otherwise trim each sentence, group consecutive sentences
into runs of at most `maxS`, and join each group with single spaces and
trim it. -/
def splitSpec (s : String) (maxS : Nat) : List String :=
  let enhanced := (addNaturalPauses s).data
  match sentencesOf enhanced with
  | [] => [(⟨enhanced⟩ : String)]
  | ss => (listChunks maxS (ss.map jsTrim)).map
      (fun g => (⟨jsTrim (joinSpaces g)⟩ : String))

theorem listChunksF_nil (maxS : Nat) : ∀ fuel : Nat, listChunksF fuel maxS [] = []
  | 0 => rfl
  | _ + 1 => rfl

theorem mem_listChunksF (maxS : Nat) (hm : 0 < maxS) :
    ∀ (fuel : Nat) (l g : List (List Char)),
      g ∈ listChunksF fuel maxS l → g ≠ [] ∧ ∀ x ∈ g, x ∈ l
  | 0, _, g, h => by cases h
  | fuel + 1, l, g, h => by
      unfold listChunksF at h
      cases l with
      | nil => cases h
      | cons a as =>
          rcases List.mem_cons.mp h with rfl | h2
          · constructor
            · obtain ⟨m, rfl⟩ := Nat.exists_eq_succ_of_ne_zero (Nat.pos_iff_ne_zero.mp hm)
              simp [List.take_succ_cons]
            · exact fun x hx => List.take_subset _ _ hx
          · obtain ⟨hne, hsub⟩ := mem_listChunksF maxS hm fuel _ g h2
            exact ⟨hne, fun x hx => List.drop_subset _ _ (hsub x hx)⟩

theorem listChunksF_fuel_eq (maxS : Nat) (hm : 0 < maxS) :
    ∀ (n fuel fuel' : Nat) (l : List (List Char)),
      l.length ≤ n → l.length ≤ fuel → l.length ≤ fuel' →
      listChunksF fuel maxS l = listChunksF fuel' maxS l
  | 0, fuel, fuel', l, hn, _, _ => by
      have : l = [] := List.length_eq_zero.mp (Nat.le_zero.mp hn)
      subst this
      rw [listChunksF_nil, listChunksF_nil]
  | n + 1, fuel, fuel', l, hn, hf, hf' => by
      cases l with
      | nil => rw [listChunksF_nil, listChunksF_nil]
      | cons a as =>
          simp only [List.length_cons] at hn hf hf'
          cases fuel with
          | zero => omega
          | succ f =>
              cases fuel' with
              | zero => omega
              | succ f' =>
                  show (a :: as).take maxS :: listChunksF f maxS ((a :: as).drop maxS) =
                    (a :: as).take maxS :: listChunksF f' maxS ((a :: as).drop maxS)
                  congr 1
                  have hd : ((a :: as).drop maxS).length ≤ n := by
                    rw [List.length_drop]
                    simp only [List.length_cons]
                    omega
                  exact listChunksF_fuel_eq maxS hm n f f' _ hd
                    (by rw [List.length_drop]; simp only [List.length_cons]; omega)
                    (by rw [List.length_drop]; simp only [List.length_cons]; omega)

theorem listChunksF_eq_listChunks (maxS : Nat) (hm : 0 < maxS)
    (fuel : Nat) (l : List (List Char)) (h : l.length ≤ fuel) :
    listChunksF fuel maxS l = listChunks maxS l :=
  listChunksF_fuel_eq maxS hm l.length fuel l.length l (Nat.le_refl _) h (Nat.le_refl _)

theorem listChunks_cons (maxS : Nat) (hm : 0 < maxS) (a : List Char)
    (as : List (List Char)) :
    listChunks maxS (a :: as) =
      (a :: as).take maxS :: listChunks maxS ((a :: as).drop maxS) := by
  show (a :: as).take maxS :: listChunksF as.length maxS ((a :: as).drop maxS) = _
  congr 1
  apply listChunksF_eq_listChunks maxS hm
  rw [List.length_drop]
  simp only [List.length_cons]
  omega

theorem listChunks_ne_nil (maxS : Nat) (hm : 0 < maxS) (l : List (List Char))
    (hne : l ≠ []) : listChunks maxS l ≠ [] := by
  cases l with
  | nil => exact absurd rfl hne
  | cons a as =>
      rw [listChunks_cons maxS hm a as]
      simp

/-- One round of the grouping loop: with a partially filled current
group, the loop flushes after consuming
`min (maxS - cur.length) ss.length` further sentences and then
continues with an empty group. -/
theorem chunkLoop_go (maxS : Nat) :
    ∀ (ss cur : List (List Char)), ss ≠ [] → cur.length < maxS →
      chunkLoop maxS cur ss =
        (if jsTrim (joinSpaces (cur ++
            (ss.take (min (maxS - cur.length) ss.length)).map jsTrim)) = [] then []
         else [jsTrim (joinSpaces (cur ++
            (ss.take (min (maxS - cur.length) ss.length)).map jsTrim))]) ++
        chunkLoop maxS [] (ss.drop (min (maxS - cur.length) ss.length))
  | [], _, hne, _ => absurd rfl hne
  | s :: rest, cur, _, hcur => by
      by_cases hflush : maxS ≤ (cur ++ [jsTrim s]).length ∨ rest = []
      · have hlhs : chunkLoop maxS cur (s :: rest) =
            (if jsTrim (joinSpaces (cur ++ [jsTrim s])) = [] then []
             else [jsTrim (joinSpaces (cur ++ [jsTrim s]))]) ++ chunkLoop maxS [] rest := by
          simp only [chunkLoop]
          rw [if_pos hflush]
        have hk : min (maxS - cur.length) (s :: rest).length = 1 := by
          rw [List.length_append, List.length_singleton] at hflush
          rcases hflush with h1 | h2
          · simp only [List.length_cons]
            omega
          · subst h2
            simp only [List.length_cons, List.length_nil]
            omega
        rw [hk]
        rw [show (s :: rest).take 1 = [s] from rfl,
          show (s :: rest).drop 1 = rest from rfl,
          show ([s].map jsTrim) = [jsTrim s] from rfl]
        exact hlhs
      · push_neg at hflush
        obtain ⟨h1, h2⟩ := hflush
        rw [List.length_append, List.length_singleton] at h1
        have hlhs : chunkLoop maxS cur (s :: rest) =
            chunkLoop maxS (cur ++ [jsTrim s]) rest := by
          simp only [chunkLoop]
          rw [if_neg (not_or.mpr ⟨by
            rw [List.length_append, List.length_singleton]; omega, h2⟩)]
        rw [hlhs, chunkLoop_go maxS rest (cur ++ [jsTrim s]) h2
          (by rw [List.length_append, List.length_singleton]; omega)]
        have hk : min (maxS - cur.length) (s :: rest).length =
            min (maxS - (cur ++ [jsTrim s]).length) rest.length + 1 := by
          rw [List.length_append, List.length_singleton]
          simp only [List.length_cons]
          omega
        rw [hk, List.take_succ_cons, List.drop_succ_cons, List.map_cons]
        rw [show cur ++ jsTrim s :: (rest.take (min (maxS - (cur ++ [jsTrim s]).length)
              rest.length)).map jsTrim =
            (cur ++ [jsTrim s]) ++ (rest.take (min (maxS - (cur ++ [jsTrim s]).length)
              rest.length)).map jsTrim from by
          rw [List.append_assoc, List.singleton_append]]

/-- The grouping loop started with an empty current group produces
exactly the spec-side groups, joined, trimmed, and with empty chunks
filtered out. -/
theorem chunkLoop_eq (maxS : Nat) (hm : 0 < maxS) :
    ∀ (n : Nat) (ss : List (List Char)), ss.length ≤ n →
      chunkLoop maxS [] ss =
        ((listChunks maxS (ss.map jsTrim)).map (fun g => jsTrim (joinSpaces g))).filter
          (fun c => !c.isEmpty)
  | 0, ss, h => by
      have : ss = [] := List.length_eq_zero.mp (Nat.le_zero.mp h)
      subst this
      rfl
  | n + 1, ss, h => by
      cases ss with
      | nil => rfl
      | cons s rest =>
          simp only [List.length_cons] at h
          rw [chunkLoop_go maxS (s :: rest) [] (by simp)
            (by simpa using hm)]
          simp only [List.length_nil, Nat.sub_zero, List.nil_append]
          rw [List.map_cons, listChunks_cons maxS hm (jsTrim s) (rest.map jsTrim),
            List.map_cons, List.filter_cons]
          have htake : ((s :: rest).take (min maxS (s :: rest).length)).map jsTrim =
              (jsTrim s :: rest.map jsTrim).take maxS := by
            rw [show (jsTrim s :: rest.map jsTrim) = (s :: rest).map jsTrim from rfl]
            rw [show ((s :: rest).map jsTrim).take maxS =
                ((s :: rest).take maxS).map jsTrim from (List.map_take _ _ _).symm]
            congr 1
            apply (List.take_eq_take).mpr
            simp only [List.length_cons]
            omega
          have hdrop : (s :: rest).drop (min maxS (s :: rest).length) =
              (s :: rest).drop maxS := by
            by_cases hle : maxS ≤ (s :: rest).length
            · rw [Nat.min_eq_left hle]
            · rw [Nat.min_eq_right (by omega)]
              rw [List.drop_length, List.drop_eq_nil_of_le (by omega)]
          have hdrop2 : (jsTrim s :: rest.map jsTrim).drop maxS =
              ((s :: rest).drop maxS).map jsTrim := by
            rw [show (jsTrim s :: rest.map jsTrim) = (s :: rest).map jsTrim from rfl]
            exact (List.map_drop _ _ _).symm
          have hrec : chunkLoop maxS [] ((s :: rest).drop (min maxS (s :: rest).length)) =
              ((listChunks maxS (((s :: rest).drop maxS).map jsTrim)).map
                (fun g => jsTrim (joinSpaces g))).filter (fun c => !c.isEmpty) := by
            rw [hdrop]
            apply chunkLoop_eq maxS hm n
            rw [List.length_drop]
            simp only [List.length_cons]
            omega
          rw [htake, hrec, hdrop2]
          by_cases hempty : jsTrim (joinSpaces ((jsTrim s :: rest.map jsTrim).take maxS)) = []
          · rw [if_pos hempty, hempty]
            simp
          · rw [if_neg hempty]
            have : (!(jsTrim (joinSpaces ((jsTrim s :: rest.map jsTrim).take maxS))).isEmpty)
                = true := by
              simpa [List.isEmpty_iff] using hempty
            rw [if_pos this]
            rfl

/-- Every chunk emitted by the grouping loop is non-empty and
trim-stable. -/
theorem chunkLoop_mem (maxS : Nat) :
    ∀ (ss cur : List (List Char)) (c : List Char),
      c ∈ chunkLoop maxS cur ss → c ≠ [] ∧ jsTrim c = c
  | [], _, _, h => by cases h
  | s :: rest, cur, c, h => by
      unfold chunkLoop at h
      dsimp only at h
      split_ifs at h with hflush hchunk
      · rw [List.nil_append] at h
        exact chunkLoop_mem maxS rest [] c h
      · rcases List.mem_cons.mp (by simpa using h) with rfl | h2
        · exact ⟨hchunk, jsTrim_idem _⟩
        · exact chunkLoop_mem maxS rest [] c h2
      · exact chunkLoop_mem maxS rest (cur ++ [jsTrim s]) c h

/-- The implementation agrees with `splitSpec` for every text and every
positive sentence bound: the filter of empty chunks never removes
anything (each group holds a trimmed sentence whose terminator
survives trimming) and the second fallback is never taken. -/
theorem split_eq_spec (text : String) (maxS : Nat) (hm : 0 < maxS) :
    splitTextIntoChunks text maxS = splitSpec text maxS := by
  unfold splitTextIntoChunks splitSpec
  dsimp only
  cases hs : sentencesOf (addNaturalPauses text).data with
  | nil => rfl
  | cons s0 srest =>
      rw [show (s0 :: srest).isEmpty = false from rfl]
      rw [if_neg (by simp)]
      have hchunks : chunkLoop maxS [] (s0 :: srest) =
          (listChunks maxS ((s0 :: srest).map jsTrim)).map
            (fun g => jsTrim (joinSpaces g)) := by
        rw [chunkLoop_eq maxS hm (s0 :: srest).length _ (Nat.le_refl _)]
        apply List.filter_eq_self.mpr
        intro x hx
        obtain ⟨g, hg, rfl⟩ := List.mem_map.mp hx
        obtain ⟨hgne, hgsub⟩ := mem_listChunksF maxS hm _ _ g hg
        obtain ⟨y, hy⟩ := List.exists_mem_of_ne_nil g hgne
        obtain ⟨sy, hsy, rfl⟩ := List.mem_map.mp (hgsub y hy)
        have hsy2 : sy ∈ sentencesOf (addNaturalPauses text).data := by
          rw [hs]
          exact hsy
        obtain ⟨tc, htc, hterm⟩ := mem_sentencesOf_term hsy2
        have htw : isWsChar tc = false := isTerm_not_ws hterm
        have h2 : tc ∈ joinSpaces g := mem_joinSpaces hy (mem_jsTrim_of_mem htc htw)
        simpa [List.isEmpty_iff] using jsTrim_ne_nil h2 htw
      rw [hchunks]
      rw [if_neg (by
        simp only [List.isEmpty_iff]
        intro hnil
        exact listChunks_ne_nil maxS hm ((s0 :: srest).map jsTrim) (by simp)
          (List.map_eq_nil_iff.mp hnil))]
      rw [List.map_map]
      rfl

/-- Claim C5 (amended): under the sentence-count policy the splitter
first applies the natural-pause pass, then segments the enhanced text
into maximal runs of non-terminator characters followed by one or more
of `. ! ?`, groups consecutive sentences into chunks of at most
`maxSentencesPerChunk`, joins each group with single spaces and trims
it; when the enhanced text contains no terminator-delimited sentence at
all it returns the entire enhanced text (not the raw input) as a
single-element sequence; splitting "A. B. C. D." with
`maxSentencesPerChunk = 2` yields exactly ["A. B.", "C. D."]. -/
theorem splitter_spec :
    (∀ (text : String) (maxS : Nat), 0 < maxS →
        splitTextIntoChunks text maxS = splitSpec text maxS) ∧
    splitTextIntoChunks "A. B. C. D." 2 = ["A. B.", "C. D."] :=
  ⟨split_eq_spec, by decide⟩

/-- Witness for `splitter_spec` at a concrete input. -/
theorem splitter_spec_witness :
    splitTextIntoChunks "Hi. There." 1 = splitSpec "Hi. There." 1 :=
  splitter_spec.1 "Hi. There." 1 (by decide)

/-- Claim C5 counterexample: with no terminator in the input, the
splitter returns the pause-enhanced text, not the original text: for
input "However" the single chunk is "However," (the transition pass
appended a comma), so the returned element differs from the entire
input text. -/
theorem splitter_returns_enhanced :
    splitTextIntoChunks "However" 2 = ["However,"] ∧
    (("However," : String) ≠ "However") := by decide

/-- Claim C6 (amended): for every input and positive bound, every chunk
is trim-stable and non-empty, except in the degenerate fallback where
the single returned element is the empty string; empty or
whitespace-only input yields the single-element sequence containing the
empty string (the pause-normalized input) rather than failing, and the
splitter always returns at least one element. -/
theorem chunks_nonempty_spec (text : String) (maxS : Nat) (_hm : 0 < maxS) :
    (∀ c ∈ splitTextIntoChunks text maxS, (⟨jsTrim c.data⟩ : String) = c) ∧
    (∀ c ∈ splitTextIntoChunks text maxS, c = "" →
      splitTextIntoChunks text maxS = [""]) ∧
    ((∀ ch ∈ text.data, isWsChar ch = true) → splitTextIntoChunks text maxS = [""]) ∧
    splitTextIntoChunks text maxS ≠ [] := by
  unfold splitTextIntoChunks
  dsimp only
  cases hsent : sentencesOf (addNaturalPauses text).data with
  | nil =>
      rw [show ([] : List (List Char)).isEmpty = true from rfl, if_pos rfl]
      refine ⟨?_, ?_, ?_, by simp⟩
      · intro c hc
        rw [List.mem_singleton] at hc
        subst hc
        dsimp only
        rw [addNaturalPauses_trimmed]
      · intro c hc hce
        rw [List.mem_singleton] at hc
        rw [hc] at hce
        rw [hce]
      · intro hws
        have he := addNaturalPauses_ws text hws
        rw [he]
  | cons s0 srest =>
      rw [show (s0 :: srest).isEmpty = false from rfl, if_neg (by simp)]
      have hws_absurd : ¬ ∀ ch ∈ text.data, isWsChar ch = true := by
        intro hws
        have he := addNaturalPauses_ws text hws
        rw [he] at hsent
        exact List.noConfusion hsent
      cases hloop : chunkLoop maxS [] (s0 :: srest) with
      | nil =>
          rw [show ([] : List (List Char)).isEmpty = true from rfl, if_pos rfl]
          refine ⟨?_, ?_, fun hws => absurd hws hws_absurd, by simp⟩
          · intro c hc
            rw [List.mem_singleton] at hc
            subst hc
            dsimp only
            rw [addNaturalPauses_trimmed]
          · intro c hc hce
            rw [List.mem_singleton] at hc
            rw [hc] at hce
            rw [hce]
      | cons c0 crest =>
          rw [show (c0 :: crest).isEmpty = false from rfl, if_neg (by simp)]
          refine ⟨?_, ?_, fun hws => absurd hws hws_absurd, by simp⟩
          · intro c hc
            obtain ⟨l, hl, rfl⟩ := List.mem_map.mp hc
            have hl2 : l ∈ chunkLoop maxS [] (s0 :: srest) := by
              rw [hloop]
              exact hl
            obtain ⟨_, htrim⟩ := chunkLoop_mem maxS _ _ l hl2
            show (⟨jsTrim l⟩ : String) = ⟨l⟩
            rw [htrim]
          · intro c hc hce
            exfalso
            obtain ⟨l, hl, rfl⟩ := List.mem_map.mp hc
            have hl2 : l ∈ chunkLoop maxS [] (s0 :: srest) := by
              rw [hloop]
              exact hl
            obtain ⟨hlne, _⟩ := chunkLoop_mem maxS _ _ l hl2
            exact hlne (congrArg String.data hce)

/-- Witness for `chunks_nonempty_spec`: a two-sentence input yields a
non-empty sequence, and whitespace-only input yields exactly [""]. -/
theorem chunks_nonempty_spec_witness :
    splitTextIntoChunks "A. B." 2 ≠ [] ∧ splitTextIntoChunks "   " 2 = [""] :=
  ⟨(chunks_nonempty_spec "A. B." 2 (by decide)).2.2.2,
   (chunks_nonempty_spec "   " 2 (by decide)).2.2.1 (by decide)⟩

/-- Claim C6 counterexample: for the whitespace-only input of three
spaces the splitter returns the singleton of the empty string, not a
singleton containing that input string. -/
theorem ws_input_chunk_not_input :
    splitTextIntoChunks "   " 1 = [""] ∧ (("" : String) ≠ "   ") := by decide

/-! ## Footnote detection

Embeds `detectFootnotes` (source lines 34-86).  The function runs the
footnote-content regex (a line-anchored marker-period-whitespace-content
pattern, multiline and global) over the text, collects all matches with
their indices, and excises a trailing footnote section only when the
first match starts after 60 percent of the document length (the float
comparison `index > length * 0.6` idealized as the exact comparison
`10 * index > 6 * length`).  Character indices stand in for the
UTF-16 indices of JavaScript; the two agree on texts without
surrogate pairs, which covers every character class the pattern uses. -/

/-- The footnote symbol alternatives of the content pattern. -/
def fnSyms : List Char := ['*', '†', '‡', '§']

/-- The regex dot: any character except a line terminator. -/
def isRegexDot (c : Char) : Bool := !(c = '\n' || c = '\r')

/-- The negative lookahead stopping continuation lines: does the text
start with a digit run followed by a period, or a footnote symbol
followed by a period? -/
def markerDotAt (l : List Char) : Bool :=
  match l with
  | [] => false
  | c :: _ =>
      if isDigitChar c then
        (l.drop (l.takeWhile isDigitChar).length).head? = some '.'
      else if c ∈ fnSyms then (l.drop 1).head? = some '.'
      else false

/-- Backtracking of the mandatory whitespace before the content: the
greedy run of length `wl` is shortened until at least one non-newline
character follows; returns the number of whitespace characters
consumed, preferring the largest. -/
def pickContentK (s : List Char) (p2 : Nat) : Nat → Option Nat
  | 0 => none
  | k + 1 =>
      match (s.drop (p2 + k + 1)).head? with
      | some c => if c ≠ '\n' then some (k + 1) else pickContentK s p2 k
      | none => pickContentK s p2 k

/-- The continuation-line loop: from position `r` (end of the previous
line), consume a newline plus a non-empty dot-run as long as the next
line does not start with a marker and period. -/
def fnContLoop (s : List Char) : Nat → Nat → Nat
  | 0, r => r
  | fuel + 1, r =>
      match (s.drop r).head? with
      | some '\n' =>
          if markerDotAt (s.drop (r + 1)) then r
          else
            let line := (s.drop (r + 1)).takeWhile isRegexDot
            if line.length = 0 then r
            else fnContLoop s fuel (r + 1 + line.length)
      | _ => r

/-- Match the body of the content pattern at absolute position `p`
(just after the start anchor): optional whitespace, a marker (digit run
or one symbol), a period, mandatory whitespace, then the content (the
rest of the line and its continuation lines).  Returns the marker, the
raw content, and the end position of the match. -/
def fnBodyAt (s : List Char) (p : Nat) : Option (List Char × List Char × Nat) :=
  let w := (s.drop p).takeWhile isWsChar
  let q := p + w.length
  match (s.drop q).head? with
  | none => none
  | some c =>
      let mlen := if isDigitChar c then ((s.drop q).takeWhile isDigitChar).length
                  else if c ∈ fnSyms then 1 else 0
      if mlen = 0 then none
      else if (s.drop (q + mlen)).head? = some '.' then
        let p2 := q + mlen + 1
        let wl := ((s.drop p2).takeWhile isWsChar).length
        if wl = 0 then none
        else
          match pickContentK s p2 wl with
          | none => none
          | some k =>
              let cstart := p2 + k
              let line1 := (s.drop cstart).takeWhile (fun x => x ≠ '\n')
              let rEnd := fnContLoop s s.length (cstart + line1.length)
              some ((s.drop q).take mlen, (s.drop cstart).take (rEnd - cstart), rEnd)
      else none

/-- Does a match start at position `i`?  For the group of the start
anchor and the newline alternative: at the start of the string or right
after a newline the zero-width multiline anchor applies and the body
starts at `i`; otherwise, or when that fails, a newline at `i` is
consumed and the body starts at `i + 1`. -/
def fnMatchAt (s : List Char) (i : Nat) : Option (List Char × List Char × Nat) :=
  match (if i = 0 ∨ (s.drop (i - 1)).head? = some '\n' then fnBodyAt s i else none) with
  | some r => some r
  | none => if (s.drop i).head? = some '\n' then fnBodyAt s (i + 1) else none

/-- All matches of the content pattern, scanning left to right with the
global flag: the first match at the lowest starting position wins, and
the search resumes at the end of each match.  The stored content is
trimmed at collection time, as in the source.  Fuel-structural; the
position grows every step, so `length + 2` fuel always completes. -/
def fnScanF (s : List Char) : Nat → Nat → List (Nat × List Char × List Char)
  | 0, _ => []
  | fuel + 1, i =>
      if s.length < i then []
      else
        match fnMatchAt s i with
        | some (marker, content, e) =>
            (i, marker, jsTrim content) :: fnScanF s fuel (if i < e then e else i + 1)
        | none => fnScanF s fuel (i + 1)

/-- The detected footnote-content matches of a text:
(index, marker, trimmed content) in match order. -/
def fnContents (s : String) : List (Nat × List Char × List Char) :=
  fnScanF s.data (s.data.length + 2) 0

/-- JavaScript `Map.set`: insert, or overwrite keeping the original
insertion position. -/
def mapSet : List (String × String) → String → String → List (String × String)
  | [], k, v => [(k, v)]
  | (k1, v1) :: rest, k, v =>
      if k1 = k then (k1, v) :: rest else (k1, v1) :: mapSet rest k v

/-- JavaScript `Map.get`. -/
def mapGet : List (String × String) → String → Option String
  | [], _ => none
  | (k1, v1) :: rest, k => if k1 = k then some v1 else mapGet rest k

/-- The footnote table built by the `forEach` of the source: each
detected (marker, content) pair set in order. -/
def tableOf (ms : List (Nat × List Char × List Char)) : List (String × String) :=
  ms.foldl (fun m t => mapSet m (⟨t.2.1⟩ : String) (⟨t.2.2⟩ : String)) []

/-- Embeds `detectFootnotes` (source lines 34-86): the main text always
ends at `mainTextEnd`, which is the whole text unless the first
detected content line starts after 60 percent of the length; the table
is filled only in that case. -/
def detectFootnotes (s : String) : String × List (String × String) :=
  let contents := fnContents s
  let mainTextEnd :=
    match contents with
    | [] => s.length
    | (i, _, _) :: _ => if 10 * i > 6 * s.length then i else s.length
  let table :=
    match contents with
    | [] => []
    | (i, _, _) :: _ => if 10 * i > 6 * s.length then tableOf contents else []
  ((⟨s.data.take mainTextEnd⟩ : String), table)

example : detectFootnotes "The quick brown fox jumps over the lazy dog again.\n1. A note" =
    ("The quick brown fox jumps over the lazy dog again.",
     [("1", "A note")]) := by decide

example : detectFootnotes "1. First a list item.\nThen more body text follows here." =
    ("1. First a list item.\nThen more body text follows here.", []) := by decide

example : detectFootnotes "No footnotes here at all." =
    ("No footnotes here at all.", []) := by decide

theorem mapGet_mapSet (m : List (String × String)) (k1 v1 : String) (k : String) :
    mapGet (mapSet m k1 v1) k = if k1 = k then some v1 else mapGet m k := by
  induction m with
  | nil => simp [mapSet, mapGet]
  | cons p rest ih =>
      obtain ⟨k2, v2⟩ := p
      by_cases h2 : k2 = k1 <;> by_cases h3 : k2 = k <;> by_cases h1 : k1 = k <;>
        simp_all [mapSet, mapGet]

/-- The fold of `Map.set` calls over the detected contents realizes
last-write-wins lookup: the table maps a marker to the trimmed content
of its last detection. -/
theorem mapGet_foldl_mapSet :
    ∀ (ms : List (Nat × List Char × List Char)) (m : List (String × String)) (k : String),
      mapGet (ms.foldl (fun acc t => mapSet acc (⟨t.2.1⟩ : String) (⟨t.2.2⟩ : String)) m) k =
        match (ms.filterMap (fun t =>
            if (⟨t.2.1⟩ : String) = k then some ((⟨t.2.2⟩ : String)) else none)).getLast? with
        | some v => some v
        | none => mapGet m k
  | [], m, k => rfl
  | t :: ms, m, k => by
      rw [List.foldl_cons, mapGet_foldl_mapSet ms _ k, List.filterMap_cons]
      by_cases hk : (⟨t.2.1⟩ : String) = k
      · rw [if_pos hk]
        dsimp only
        cases hfm : (ms.filterMap (fun t =>
            if (⟨t.2.1⟩ : String) = k then some ((⟨t.2.2⟩ : String)) else none)) with
        | nil =>
            show mapGet (mapSet m _ _) k = some _
            rw [mapGet_mapSet, if_pos hk]
            rfl
        | cons x xs =>
            rw [List.getLast?_cons_cons]
            cases hlast : (x :: xs).getLast? with
            | some v => rfl
            | none => exact absurd (List.getLast?_eq_none_iff.mp hlast) (by simp)
      · rw [if_neg hk]
        dsimp only
        cases hlast : (ms.filterMap (fun t =>
            if (⟨t.2.1⟩ : String) = k then some ((⟨t.2.2⟩ : String)) else none)).getLast? with
        | some v => rfl
        | none =>
            show mapGet (mapSet m _ _) k = mapGet m k
            rw [mapGet_mapSet, if_neg hk]

/-- Claim C4: the footnote extractor excises a trailing footnote
section exactly when the first detected footnote-content line starts
after 60 percent of the document length; in that case the returned
body text is the text before that line and the table is the
last-write-wins map from each detected marker to its trimmed content;
otherwise (no content lines, or the first one at or before the 60
percent point) the full text is returned unmodified with an empty
table.  The table lookup of any marker returns the trimmed content of
its last detection, or nothing for undetected markers. -/
theorem detectFootnotes_spec (s : String) :
    detectFootnotes s =
      (match fnContents s with
       | [] => (s, [])
       | (i, _, _) :: _ =>
           if 10 * i > 6 * s.length
           then ((⟨s.data.take i⟩ : String), tableOf (fnContents s))
           else (s, [])) ∧
    (∀ k : String, mapGet (tableOf (fnContents s)) k =
      ((fnContents s).filterMap (fun t =>
        if (⟨t.2.1⟩ : String) = k then some ((⟨t.2.2⟩ : String)) else none)).getLast?) := by
  constructor
  · unfold detectFootnotes
    dsimp only
    have htake : s.data.take s.length = s.data := by
      show s.data.take s.data.length = s.data
      exact List.take_length _
    cases hc : fnContents s with
    | nil =>
        rw [htake]
    | cons t rest =>
        obtain ⟨i, marker, content⟩ := t
        dsimp only
        split_ifs with h60
        · rfl
        · rw [htake]
  · intro k
    show mapGet ((fnContents s).foldl
        (fun acc t => mapSet acc (⟨t.2.1⟩ : String) (⟨t.2.2⟩ : String)) []) k = _
    rw [mapGet_foldl_mapSet]
    cases ((fnContents s).filterMap (fun t =>
        if (⟨t.2.1⟩ : String) = k then some ((⟨t.2.2⟩ : String)) else none)).getLast? with
    | some v => rfl
    | none => rfl

end LittleReader
